import Mathlib

/-!
Verification of the OCA LLM gateway core against its specification.

The definitions below are shallow embeddings of the Python sources:
`core/llm.py` (tool-call sequence validator, streaming tool-call builders),
`core/oauth2_token_manager.py` (dual-path transport and token refresh),
`anthropic_api.py` (Anthropic streaming remultiplexer),
`converters/responses_converter.py` and `responses_api.py`
(Responses dialect conversion, streaming events and the response store).
-/

namespace OCA

/-- A tool-call record carried by an assistant message: a stable `id`, a
function `name`, and the raw JSON-text `arguments` string.  A Python value of
`None` or the empty string for `id` is modelled as `""` (both are falsy). -/
structure ToolCall where
  id : String
  name : String
  args : String
deriving DecidableEq, Repr

/-- Canonical internal message model (LangChain messages as used by
`_validate_tool_call_sequences`): `HumanMessage`, `SystemMessage`,
`AIMessage` (with a possibly empty `tool_calls` list) and `ToolMessage`. -/
inductive Msg where
  | user (content : String)
  | system (content : String)
  | assistant (content : String) (toolCalls : List ToolCall)
  | tool (toolCallId : String) (content : String)
deriving DecidableEq, Repr

/-- Message weight, from `_calculate_message_weight` in `core/llm.py`:
`-1` for a tool message, the number of tool calls for an assistant message
with a non-empty `tool_calls` list, `0` otherwise. -/
def weight : Msg → Int
  | .tool _ _ => -1
  | .assistant _ tcs => if tcs.length > 0 then (tcs.length : Int) else 0
  | _ => 0

/-- Whether a message is a tool-result message (weight `-1`). -/
def isTool : Msg → Bool
  | .tool _ _ => true
  | _ => false

/-- The `tool_call_id` of a tool-result message, if any. -/
def toolId : Msg → Option String
  | .tool k _ => some k
  | _ => none

/-- The tool calls of a message (empty for non-assistant messages). -/
def msgToolCalls : Msg → List ToolCall
  | .assistant _ tcs => tcs
  | _ => []

/-- Add an id to a list if not already present; models insertion into the
Python `set` `remaining_ids` (only membership, emptiness and removal of the
set are ever observed, so a duplicate-free list is a faithful model). -/
def insertId (acc : List String) (i : String) : List String :=
  if i ∈ acc then acc else acc ++ [i]

/-- The ids collected from an assistant's tool calls in
`_validate_tool_call_sequences`: each truthy (non-empty) `id` is added to
the `remaining_ids` set; falsy ids are skipped. -/
def collectIds (tcs : List ToolCall) : List String :=
  tcs.foldl (fun acc tc => if tc.id = "" then acc else insertId acc tc.id) []

/-- Result of the inner collection loop of the validator:
the matched tool-result messages in arrival order (`temp` minus the opening
assistant message), the ids still pending, the delayed interrupting message
(`temp_2`, at most one element), and the untouched remainder of the input. -/
structure CollectOut where
  grp : List Msg
  pending : List String
  delayed : List Msg
  rest : List Msg
deriving Repr

/-- The inner `while remaining_ids and remaining_messages` loop of
`_validate_tool_call_sequences`: tool messages whose id is pending are
consumed into the group (removing the id), non-matching tool messages are
discarded, and the first non-tool message interrupts the loop and is
delayed. -/
def collectSeq (pending : List String) : List Msg → CollectOut
  | [] => ⟨[], pending, [], []⟩
  | n :: rest =>
    if pending.isEmpty then ⟨[], pending, [], n :: rest⟩
    else
      match n with
      | .tool k _ =>
        if k ∈ pending then
          let out := collectSeq (pending.erase k) rest
          ⟨n :: out.grp, out.pending, out.delayed, out.rest⟩
        else
          collectSeq pending rest
      | _ => ⟨[], pending, [n], rest⟩

theorem collectSeq_len (pending : List String) (l : List Msg) :
    (collectSeq pending l).grp.length + (collectSeq pending l).delayed.length
      + (collectSeq pending l).rest.length ≤ l.length := by
  induction l generalizing pending with
  | nil => simp [collectSeq]
  | cons n rest ih =>
    by_cases hp : pending.isEmpty
    · simp [collectSeq, hp]
    · cases n with
      | tool k t =>
        by_cases hk : k ∈ pending
        · have h := ih (pending.erase k)
          simp [collectSeq, hp, hk]
          omega
        · have h := ih pending
          simp [collectSeq, hp, hk]
          omega
      | user c =>
        simp [collectSeq, hp]
        omega
      | system c =>
        simp [collectSeq, hp]
        omega
      | assistant c tcs =>
        simp [collectSeq, hp]
        omega

/-- The tool-call sequence validator `_validate_tool_call_sequences` from
`core/llm.py`.  Weight-0 messages pass through, orphaned tool messages are
discarded, and an assistant message with tool calls opens a collection
phase; on incomplete resolution the assistant keeps only the tool calls
whose id is not still pending (demoted to a plain assistant message if none
remain), and the delayed interrupting message is re-queued at the front. -/
def validate : List Msg → List Msg
  | [] => []
  | m :: rest =>
    match m with
    | .assistant c tcs =>
      if tcs.isEmpty then Msg.assistant c tcs :: validate rest
      else
        let out := collectSeq (collectIds tcs) rest
        let head :=
          if out.pending.isEmpty then Msg.assistant c tcs
          else
            let matched := tcs.filter (fun tc => !(out.pending.contains tc.id))
            if matched.isEmpty then Msg.assistant c [] else Msg.assistant c matched
        head :: (out.grp ++ validate (out.delayed ++ out.rest))
    | .tool _ _ => validate rest
    | .user c => Msg.user c :: validate rest
    | .system c => Msg.system c :: validate rest
termination_by l => l.length
decreasing_by
  all_goals first
    | (simp only [List.length_cons]; omega)
    | (have h := collectSeq_len (collectIds tcs) rest
       simp only [List.length_append, List.length_cons]
       omega)

/-- The ids of the tool-result messages in a group, in order. -/
def grpIds (grp : List Msg) : List String := grp.filterMap toolId

/-- The list whose head, if any, is not a tool-result message. -/
def headNotTool : List Msg → Prop
  | [] => True
  | m :: _ => isTool m = false

/-- Every tool call of every assistant message in the list has a non-empty id. -/
def allTruthy (s : List Msg) : Prop :=
  ∀ m ∈ s, ∀ tc ∈ msgToolCalls m, tc.id ≠ ""

instance : DecidablePred allTruthy := fun s => by
  unfold allTruthy; infer_instance

theorem mem_insertId {acc : List String} {i x : String} :
    x ∈ insertId acc i ↔ x ∈ acc ∨ x = i := by
  by_cases h : i ∈ acc
  · simp only [insertId, if_pos h]
    constructor
    · exact Or.inl
    · rintro (hx | rfl) <;> assumption
  · simp [insertId, if_neg h]

theorem insertId_nodup {acc : List String} {i : String} (h : acc.Nodup) :
    (insertId acc i).Nodup := by
  by_cases hm : i ∈ acc
  · simpa [insertId, if_pos hm] using h
  · simp only [insertId, if_neg hm]
    simpa [List.nodup_append] using ⟨h, hm⟩

theorem collectIds_aux_nodup (tcs : List ToolCall) (acc : List String)
    (h : acc.Nodup) :
    (tcs.foldl (fun acc tc => if tc.id = "" then acc else insertId acc tc.id) acc).Nodup := by
  induction tcs generalizing acc with
  | nil => simpa using h
  | cons tc tcs ih =>
    simp only [List.foldl_cons]
    by_cases hid : tc.id = ""
    · simpa [hid] using ih acc h
    · simp only [if_neg hid]
      exact ih _ (insertId_nodup h)

theorem collectIds_nodup (tcs : List ToolCall) : (collectIds tcs).Nodup :=
  collectIds_aux_nodup tcs [] List.nodup_nil

theorem mem_collectIds_aux (tcs : List ToolCall) (acc : List String) (x : String) :
    x ∈ tcs.foldl (fun acc tc => if tc.id = "" then acc else insertId acc tc.id) acc ↔
      x ∈ acc ∨ ∃ tc ∈ tcs, tc.id = x ∧ x ≠ "" := by
  induction tcs generalizing acc with
  | nil => simp
  | cons tc tcs ih =>
    simp only [List.foldl_cons]
    by_cases hid : tc.id = ""
    · rw [if_pos hid, ih]
      constructor
      · rintro (h | h)
        · exact Or.inl h
        · exact Or.inr (by simpa using Or.inr h)
      · rintro (h | h)
        · exact Or.inl h
        · rcases h with ⟨tc', htc', hx, hne⟩
          rcases List.mem_cons.mp htc' with rfl | hmem
          · exact absurd (hid ▸ hx) hne.symm
          · exact Or.inr ⟨tc', hmem, hx, hne⟩
    · rw [if_neg hid, ih]
      constructor
      · rintro (h | h)
        · rcases mem_insertId.mp h with h' | rfl
          · exact Or.inl h'
          · exact Or.inr ⟨tc, List.mem_cons_self _ _, rfl, hid⟩
        · rcases h with ⟨tc', htc', hx, hne⟩
          exact Or.inr ⟨tc', List.mem_cons_of_mem _ htc', hx, hne⟩
      · rintro (h | h)
        · exact Or.inl (mem_insertId.mpr (Or.inl h))
        · rcases h with ⟨tc', htc', hx, hne⟩
          rcases List.mem_cons.mp htc' with rfl | hmem
          · exact Or.inl (mem_insertId.mpr (Or.inr hx.symm))
          · exact Or.inr ⟨tc', hmem, hx, hne⟩

theorem mem_collectIds {tcs : List ToolCall} {x : String} :
    x ∈ collectIds tcs ↔ ∃ tc ∈ tcs, tc.id = x ∧ x ≠ "" := by
  simpa using mem_collectIds_aux tcs [] x

/-- The ids collected from an assistant message are among its tool-call ids. -/
theorem collectIds_subset_idsOf {tcs : List ToolCall} {x : String}
    (h : x ∈ collectIds tcs) : x ∈ tcs.map ToolCall.id := by
  rcases mem_collectIds.mp h with ⟨tc, htc, rfl, _⟩
  exact List.mem_map_of_mem _ htc

/-- Behaviour of the collection loop: the collected group consists of tool
messages whose ids were pending and are no longer pending, the delayed list
holds only non-tool messages drawn from the input, and the remainder is
drawn from the input. -/
theorem collectSeq_spec (p : List String) (l : List Msg) (hp : p.Nodup) :
    (∀ m ∈ (collectSeq p l).grp, isTool m = true) ∧
    (collectSeq p l).pending.Sublist p ∧
    (grpIds (collectSeq p l).grp).Nodup ∧
    (∀ x, x ∈ grpIds (collectSeq p l).grp ↔ x ∈ p ∧ x ∉ (collectSeq p l).pending) ∧
    (∀ m ∈ (collectSeq p l).delayed, isTool m = false) ∧
    (∀ m ∈ (collectSeq p l).delayed, m ∈ l) ∧
    (∀ m ∈ (collectSeq p l).rest, m ∈ l) := by
  induction l generalizing p with
  | nil =>
    simp [collectSeq, grpIds]
  | cons n rest ih =>
    by_cases hp0 : p.isEmpty
    · refine ⟨?_, ?_, ?_, ?_, ?_, ?_, ?_⟩ <;> simp [collectSeq, hp0, grpIds]
    · cases n with
      | tool k t =>
        by_cases hk : k ∈ p
        · obtain ⟨ihTool, ihSub, ihNodup, ihIff, ihDel, ihDelMem, ihRestMem⟩ :=
            ih (p.erase k) (hp.erase k)
          have hkerase : k ∉ p.erase k := fun hmem =>
            (hp.mem_erase_iff.mp hmem).1 rfl
          have hknotpend : k ∉ (collectSeq (p.erase k) rest).pending := fun hmem =>
            hkerase (ihSub.subset hmem)
          constructor
          · intro m hm
            simp only [collectSeq, hp0, if_neg, hk, if_pos] at hm
            rcases List.mem_cons.mp hm with rfl | hm'
            · rfl
            · exact ihTool m hm'
          constructor
          · simp only [collectSeq, hp0, hk, if_pos]
            exact ihSub.trans (List.erase_sublist _ _)
          constructor
          · simp only [collectSeq, hp0, hk, if_pos, grpIds, toolId,
              List.filterMap_cons]
            refine List.Nodup.cons ?_ ihNodup
            intro hmem
            exact hkerase ((ihIff k).mp hmem).1
          constructor
          · intro x
            simp only [collectSeq, hp0, hk, if_pos, grpIds, toolId,
              List.filterMap_cons]
            constructor
            · intro hx
              rcases List.mem_cons.mp hx with rfl | hx'
              · exact ⟨hk, hknotpend⟩
              · have := (ihIff x).mp hx'
                exact ⟨List.mem_of_mem_erase this.1, this.2⟩
            · rintro ⟨hxp, hxnp⟩
              by_cases hxk : x = k
              · exact hxk ▸ List.mem_cons_self _ _
              · refine List.mem_cons_of_mem _ ((ihIff x).mpr ⟨?_, hxnp⟩)
                exact hp.mem_erase_iff.mpr ⟨hxk, hxp⟩
          refine ⟨?_, ?_, ?_⟩ <;>
            · intro m hm
              simp only [collectSeq, hp0, hk, if_pos] at hm
              first
                | exact ihDel m hm
                | exact List.mem_cons_of_mem _ (ihDelMem m hm)
                | exact List.mem_cons_of_mem _ (ihRestMem m hm)
        · obtain ⟨ihTool, ihSub, ihNodup, ihIff, ihDel, ihDelMem, ihRestMem⟩ :=
            ih p hp
          have heq : collectSeq p (Msg.tool k t :: rest) = collectSeq p rest := by
            simp [collectSeq, hp0, hk]
          rw [heq]
          exact ⟨ihTool, ihSub, ihNodup, ihIff, ihDel,
            fun m hm => List.mem_cons_of_mem _ (ihDelMem m hm),
            fun m hm => List.mem_cons_of_mem _ (ihRestMem m hm)⟩
      | user c =>
        refine ⟨?_, ?_, ?_, ?_, ?_, ?_, ?_⟩ <;>
          (simp [collectSeq, hp0, grpIds, isTool];
           try exact fun m hm => Or.inr hm)
      | system c =>
        refine ⟨?_, ?_, ?_, ?_, ?_, ?_, ?_⟩ <;>
          (simp [collectSeq, hp0, grpIds, isTool];
           try exact fun m hm => Or.inr hm)
      | assistant c tcs =>
        refine ⟨?_, ?_, ?_, ?_, ?_, ?_, ?_⟩ <;>
          (simp [collectSeq, hp0, grpIds, isTool];
           try exact fun m hm => Or.inr hm)

/-- Unfolding equations for `validate`. -/
theorem validate_nil : validate [] = [] := by simp [validate]

theorem validate_user (c : String) (rest : List Msg) :
    validate (Msg.user c :: rest) = Msg.user c :: validate rest := by
  simp [validate]

theorem validate_system (c : String) (rest : List Msg) :
    validate (Msg.system c :: rest) = Msg.system c :: validate rest := by
  simp [validate]

theorem validate_tool (k t : String) (rest : List Msg) :
    validate (Msg.tool k t :: rest) = validate rest := by
  simp [validate]

theorem validate_plain (c : String) (rest : List Msg) :
    validate (Msg.assistant c [] :: rest) = Msg.assistant c [] :: validate rest := by
  simp [validate]

theorem validate_group (c : String) (tcs : List ToolCall) (rest : List Msg)
    (h : tcs ≠ []) :
    validate (Msg.assistant c tcs :: rest) =
      (if (collectSeq (collectIds tcs) rest).pending.isEmpty then
          Msg.assistant c tcs
        else if (tcs.filter
            (fun tc => !((collectSeq (collectIds tcs) rest).pending.contains tc.id))).isEmpty then
          Msg.assistant c []
        else
          Msg.assistant c (tcs.filter
            (fun tc => !((collectSeq (collectIds tcs) rest).pending.contains tc.id)))) ::
      ((collectSeq (collectIds tcs) rest).grp ++
        validate ((collectSeq (collectIds tcs) rest).delayed ++
          (collectSeq (collectIds tcs) rest).rest)) := by
  have h' : ¬tcs.isEmpty := by simpa [List.isEmpty_iff] using h
  simp [validate, h']

/-- The validator's output never begins with a tool-result message. -/
theorem headNotTool_validate (s : List Msg) : headNotTool (validate s) := by
  induction s using validate.induct with
  | case1 => simp [validate_nil, headNotTool]
  | case2 rest c tcs h ih =>
    have htcs : tcs = [] := by simpa [List.isEmpty_iff] using h
    subst htcs
    simp [validate_plain, headNotTool, isTool]
  | case3 rest c tcs h ih =>
    have h' : tcs ≠ [] := by simpa [List.isEmpty_iff] using h
    rw [validate_group c tcs rest h']
    simp only [headNotTool]
    split <;> (try split) <;> rfl
  | case4 rest k t ih => rw [validate_tool]; exact ih
  | case5 rest c ih => simp [validate_user, headNotTool, isTool]
  | case6 rest c ih => simp [validate_system, headNotTool, isTool]

/-- When the pending ids exactly cover a group of tool messages placed at the
front of the remaining input, the collection loop consumes precisely that
group and leaves the rest untouched. -/
theorem collectSeq_exhaust (grp : List Msg) (rest : List Msg) (p : List String)
    (hp : p.Nodup)
    (hTool : ∀ m ∈ grp, isTool m = true)
    (hNodup : (grpIds grp).Nodup)
    (hIff : ∀ x, x ∈ grpIds grp ↔ x ∈ p) :
    collectSeq p (grp ++ rest) = ⟨grp, [], [], rest⟩ := by
  induction grp generalizing p with
  | nil =>
    have hpnil : p = [] := by
      refine List.eq_nil_iff_forall_not_mem.mpr fun x hx => ?_
      simpa [grpIds] using (hIff x).mpr hx
    subst hpnil
    cases rest with
    | nil => simp [collectSeq]
    | cons n r => simp [collectSeq]
  | cons m grp ih =>
    cases m with
    | tool k t =>
      have hgrpIds : grpIds (Msg.tool k t :: grp) = k :: grpIds grp := by
        simp [grpIds, toolId]
      have hkmem : k ∈ p := (hIff k).mp (by simp [hgrpIds])
      have hknot : k ∉ grpIds grp := by
        rw [hgrpIds] at hNodup
        exact (List.nodup_cons.mp hNodup).1
      have hNodup' : (grpIds grp).Nodup := by
        rw [hgrpIds] at hNodup
        exact (List.nodup_cons.mp hNodup).2
      have hpne : ¬p.isEmpty := by
        cases p with
        | nil => simp at hkmem
        | cons a l => simp
      have hIff' : ∀ x, x ∈ grpIds grp ↔ x ∈ p.erase k := by
        intro x
        constructor
        · intro hx
          have hxp : x ∈ p := (hIff x).mp (by rw [hgrpIds]; exact List.mem_cons_of_mem _ hx)
          have hxk : x ≠ k := fun hxk => hknot (hxk ▸ hx)
          exact hp.mem_erase_iff.mpr ⟨hxk, hxp⟩
        · intro hx
          obtain ⟨hxk, hxp⟩ := hp.mem_erase_iff.mp hx
          have := (hIff x).mpr hxp
          rw [hgrpIds] at this
          rcases List.mem_cons.mp this with rfl | h'
          · exact absurd rfl hxk
          · exact h'
      have ihres := ih (p.erase k) (hp.erase k)
        (fun m hm => hTool m (List.mem_cons_of_mem _ hm)) hNodup' hIff'
      simp [collectSeq, hpne, hkmem, ihres]
    | user c => simpa [isTool] using hTool (Msg.user c) (List.mem_cons_self _ _)
    | system c => simpa [isTool] using hTool (Msg.system c) (List.mem_cons_self _ _)
    | assistant c tcs =>
      simpa [isTool] using hTool (Msg.assistant c tcs) (List.mem_cons_self _ _)

/-- Structural shape of validator fixed points: a sequence of weight-0
messages and complete assistant groups, where a group's tool results have
pairwise distinct ids covering exactly the assistant's collected (truthy)
ids, and is followed by a non-tool message. -/
inductive Fixed : List Msg → Prop
  | nil : Fixed []
  | user (c : String) (rest : List Msg) : Fixed rest → Fixed (Msg.user c :: rest)
  | system (c : String) (rest : List Msg) : Fixed rest → Fixed (Msg.system c :: rest)
  | plain (c : String) (rest : List Msg) : Fixed rest → Fixed (Msg.assistant c [] :: rest)
  | group (c : String) (tcs : List ToolCall) (grp rest : List Msg) :
      tcs ≠ [] →
      (∀ m ∈ grp, isTool m = true) →
      (grpIds grp).Nodup →
      (∀ x, x ∈ grpIds grp ↔ x ∈ collectIds tcs) →
      headNotTool rest →
      Fixed rest → Fixed (Msg.assistant c tcs :: (grp ++ rest))

/-- The validator is the identity on sequences of the fixed-point shape. -/
theorem validate_eq_of_Fixed {s : List Msg} (h : Fixed s) : validate s = s := by
  induction h with
  | nil => exact validate_nil
  | user c rest _ ih => rw [validate_user, ih]
  | system c rest _ ih => rw [validate_system, ih]
  | plain c rest _ ih => rw [validate_plain, ih]
  | group c tcs grp rest hne hTool hNodup hIff hHead _ ih =>
    rw [validate_group c tcs _ hne,
      collectSeq_exhaust grp rest (collectIds tcs) (collectIds_nodup tcs) hTool hNodup hIff]
    simp [ih]

theorem mem_matched {tcs : List ToolCall} {pending : List String} {tc : ToolCall} :
    tc ∈ tcs.filter (fun tc => !(pending.contains tc.id)) ↔
      tc ∈ tcs ∧ tc.id ∉ pending := by
  simp [List.mem_filter]

/-- Every validator output has the fixed-point shape. -/
theorem Fixed_validate (s : List Msg) : Fixed (validate s) := by
  induction s using validate.induct with
  | case1 => rw [validate_nil]; exact Fixed.nil
  | case2 rest c tcs h ih =>
    have htcs : tcs = [] := by simpa [List.isEmpty_iff] using h
    subst htcs
    rw [validate_plain]
    exact Fixed.plain c _ ih
  | case3 rest c tcs h out ih =>
    have h' : tcs ≠ [] := by simpa [List.isEmpty_iff] using h
    obtain ⟨sTool, sSub, sNodup, sIff, sDel, sDelMem, sRestMem⟩ :=
      collectSeq_spec (collectIds tcs) rest (collectIds_nodup tcs)
    rw [validate_group c tcs rest h']
    by_cases h1 : (collectSeq (collectIds tcs) rest).pending.isEmpty
    · rw [if_pos h1]
      refine Fixed.group c tcs _ _ h' sTool sNodup ?_ (headNotTool_validate _) ih
      intro x
      rw [sIff x]
      have hpnil : (collectSeq (collectIds tcs) rest).pending = [] :=
        List.isEmpty_iff.mp h1
      simp [hpnil]
    · rw [if_neg h1]
      by_cases h2 : (tcs.filter
          (fun tc => !((collectSeq (collectIds tcs) rest).pending.contains tc.id))).isEmpty
      · rw [if_pos h2]
        have hsub : ∀ tc ∈ tcs, tc.id ∈ (collectSeq (collectIds tcs) rest).pending := by
          intro tc htc
          have hnil := List.isEmpty_iff.mp h2
          by_contra hnp
          have : tc ∈ tcs.filter
              (fun tc => !((collectSeq (collectIds tcs) rest).pending.contains tc.id)) :=
            mem_matched.mpr ⟨htc, hnp⟩
          rw [hnil] at this
          exact absurd this (List.not_mem_nil _)
        have hgrpnil : (collectSeq (collectIds tcs) rest).grp = [] := by
          refine List.eq_nil_iff_forall_not_mem.mpr fun m hm => ?_
          have ht := sTool m hm
          cases m with
          | tool k t =>
            have hk : k ∈ grpIds (collectSeq (collectIds tcs) rest).grp := by
              simp only [grpIds]
              exact List.mem_filterMap.mpr ⟨Msg.tool k t, hm, rfl⟩
            obtain ⟨hkc, hknp⟩ := (sIff k).mp hk
            obtain ⟨tc, htc, rfl, hne⟩ := mem_collectIds.mp hkc
            exact hknp (hsub tc htc)
          | user c' => simp [isTool] at ht
          | system c' => simp [isTool] at ht
          | assistant c' tcs' => simp [isTool] at ht
        rw [hgrpnil]
        simpa using Fixed.plain c _ ih
      · rw [if_neg h2]
        have hmne : tcs.filter
            (fun tc => !((collectSeq (collectIds tcs) rest).pending.contains tc.id)) ≠ [] := by
          simpa [List.isEmpty_iff] using h2
        refine Fixed.group c _ _ _ hmne sTool sNodup ?_ (headNotTool_validate _) ih
        intro x
        rw [sIff x]
        constructor
        · rintro ⟨hxp, hxnp⟩
          obtain ⟨tc, htc, rfl, hne⟩ := mem_collectIds.mp hxp
          exact mem_collectIds.mpr ⟨tc, mem_matched.mpr ⟨htc, hxnp⟩, rfl, hne⟩
        · intro hx
          obtain ⟨tc, htc, rfl, hne⟩ := mem_collectIds.mp hx
          obtain ⟨htcs, hnp⟩ := mem_matched.mp htc
          exact ⟨mem_collectIds.mpr ⟨tc, htcs, rfl, hne⟩, hnp⟩
  | case4 rest k t ih => rw [validate_tool]; exact ih
  | case5 rest c ih => rw [validate_user]; exact Fixed.user c _ ih
  | case6 rest c ih => rw [validate_system]; exact Fixed.system c _ ih

/-- All tool-call ids of an assistant message, in order (including empty ones). -/
def idsOf (tcs : List ToolCall) : List String := tcs.map ToolCall.id

/-- A message permitted strictly between an assistant-with-tool-calls message
and one of its tool results (spec §3, I1): a tool result whose id is among
the assistant's tool-call ids. -/
def matchingResult (ids : List String) (m : Msg) : Prop :=
  ∃ k t, m = Msg.tool k t ∧ k ∈ ids

/-- Spec invariant I1 (pairing): every tool call of an assistant message is
answered by a later tool result with the same id, and nothing between the
assistant message and that result is anything other than a tool result
matching one of the assistant's ids. -/
def InvPairing (s : List Msg) : Prop :=
  ∀ pre c tcs suf, s = pre ++ Msg.assistant c tcs :: suf →
    ∀ tc ∈ tcs, ∃ mid t suf2,
      suf = mid ++ Msg.tool tc.id t :: suf2 ∧
      ∀ m ∈ mid, matchingResult (idsOf tcs) m

/-- Spec invariant I2 (no orphans): every tool result sits inside a region
opened by a preceding assistant message whose tool-call ids include the
result's id, with only matching tool results in between. -/
def InvNoOrphans (s : List Msg) : Prop :=
  ∀ pre k t suf, s = pre ++ Msg.tool k t :: suf →
    ∃ pre1 c tcs mid, pre = pre1 ++ Msg.assistant c tcs :: mid ∧
      k ∈ idsOf tcs ∧
      ∀ m ∈ mid, matchingResult (idsOf tcs) m

/-- Spec invariant I3 (completeness): every tool call of an assistant message
is resolved before the next non-tool-result message. -/
def InvCompleteness (s : List Msg) : Prop :=
  ∀ pre c tcs suf, s = pre ++ Msg.assistant c tcs :: suf →
    ∀ tc ∈ tcs, ∃ mid t suf2,
      suf = mid ++ Msg.tool tc.id t :: suf2 ∧
      ∀ m ∈ mid, isTool m = true

theorem mid_member_matching {grp : List Msg} {tcs : List ToolCall}
    (hTool : ∀ m ∈ grp, isTool m = true)
    (hIff : ∀ x, x ∈ grpIds grp ↔ x ∈ collectIds tcs) :
    ∀ m ∈ grp, matchingResult (idsOf tcs) m := by
  intro m hm
  have ht := hTool m hm
  cases m with
  | tool k t =>
    refine ⟨k, t, rfl, ?_⟩
    have hk : k ∈ grpIds grp := List.mem_filterMap.mpr ⟨Msg.tool k t, hm, rfl⟩
    exact collectIds_subset_idsOf ((hIff k).mp hk)
  | user c => simp [isTool] at ht
  | system c => simp [isTool] at ht
  | assistant c tcs' => simp [isTool] at ht

theorem invPairing_of_Fixed {s : List Msg} (hf : Fixed s) :
    allTruthy s → InvPairing s := by
  induction hf with
  | nil =>
    intro ht pre c tcs suf heq
    exact absurd heq (by simp)
  | user c0 rest _ ih =>
    intro ht pre c tcs suf heq tc htc
    have ht' : allTruthy rest := fun m hm => ht m (List.mem_cons_of_mem _ hm)
    cases pre with
    | nil => simp at heq
    | cons p pre' =>
      simp only [List.cons_append, List.cons.injEq] at heq
      exact ih ht' pre' c tcs suf heq.2 tc htc
  | system c0 rest _ ih =>
    intro ht pre c tcs suf heq tc htc
    have ht' : allTruthy rest := fun m hm => ht m (List.mem_cons_of_mem _ hm)
    cases pre with
    | nil => simp at heq
    | cons p pre' =>
      simp only [List.cons_append, List.cons.injEq] at heq
      exact ih ht' pre' c tcs suf heq.2 tc htc
  | plain c0 rest _ ih =>
    intro ht pre c tcs suf heq tc htc
    have ht' : allTruthy rest := fun m hm => ht m (List.mem_cons_of_mem _ hm)
    cases pre with
    | nil =>
      simp only [List.nil_append, List.cons.injEq, Msg.assistant.injEq] at heq
      obtain ⟨⟨-, htcs⟩, -⟩ := heq
      rw [← htcs] at htc
      exact absurd htc (List.not_mem_nil tc)
    | cons p pre' =>
      simp only [List.cons_append, List.cons.injEq] at heq
      exact ih ht' pre' c tcs suf heq.2 tc htc
  | group c0 tcs0 grp rest hne hTool hNodup hIff hHead _ ih =>
    intro ht pre c tcs suf heq tc htc
    have ht' : allTruthy rest := fun m hm =>
      ht m (List.mem_cons_of_mem _ (List.mem_append_right _ hm))
    cases pre with
    | nil =>
      simp only [List.nil_append, List.cons.injEq, Msg.assistant.injEq] at heq
      obtain ⟨⟨-, htcs⟩, hsuf⟩ := heq
      subst htcs
      have hid : tc.id ≠ "" :=
        ht (Msg.assistant c0 tcs0) (List.mem_cons_self _ _) tc htc
      have hin : tc.id ∈ grpIds grp :=
        (hIff tc.id).mpr (mem_collectIds.mpr ⟨tc, htc, rfl, hid⟩)
      obtain ⟨m, hm, hmid⟩ := List.mem_filterMap.mp hin
      have htl := hTool m hm
      cases m with
      | tool k t =>
        simp only [toolId, Option.some.injEq] at hmid
        subst hmid
        obtain ⟨mid, g2, hgrp⟩ := List.append_of_mem hm
        refine ⟨mid, t, g2 ++ rest, ?_, ?_⟩
        · rw [← hsuf, hgrp]; simp
        · intro m' hm'
          exact mid_member_matching hTool hIff m' (hgrp ▸ List.mem_append_left _ hm')
      | user c' => simp [isTool] at htl
      | system c' => simp [isTool] at htl
      | assistant c' tcs' => simp [isTool] at htl
    | cons p pre' =>
      simp only [List.cons_append, List.cons.injEq] at heq
      obtain ⟨-, heq2⟩ := heq
      rcases List.append_eq_append_iff.mp heq2.symm with ⟨w, hgrp, hw⟩ | ⟨w, hpre, hrest⟩
      · cases w with
        | nil =>
          simp only [List.nil_append] at hw
          exact ih ht' [] c tcs suf (by simpa using hw.symm) tc htc
        | cons y w' =>
          simp only [List.cons_append, List.cons.injEq] at hw
          obtain ⟨rfl, -⟩ := hw
          have := hTool _ (hgrp ▸ List.mem_append_right pre' (List.mem_cons_self _ _))
          simp [isTool] at this
      · exact ih ht' w c tcs suf hrest tc htc

theorem invCompleteness_of_Fixed {s : List Msg} (hf : Fixed s) :
    allTruthy s → InvCompleteness s := by
  induction hf with
  | nil =>
    intro ht pre c tcs suf heq
    exact absurd heq (by simp)
  | user c0 rest _ ih =>
    intro ht pre c tcs suf heq tc htc
    have ht' : allTruthy rest := fun m hm => ht m (List.mem_cons_of_mem _ hm)
    cases pre with
    | nil => simp at heq
    | cons p pre' =>
      simp only [List.cons_append, List.cons.injEq] at heq
      exact ih ht' pre' c tcs suf heq.2 tc htc
  | system c0 rest _ ih =>
    intro ht pre c tcs suf heq tc htc
    have ht' : allTruthy rest := fun m hm => ht m (List.mem_cons_of_mem _ hm)
    cases pre with
    | nil => simp at heq
    | cons p pre' =>
      simp only [List.cons_append, List.cons.injEq] at heq
      exact ih ht' pre' c tcs suf heq.2 tc htc
  | plain c0 rest _ ih =>
    intro ht pre c tcs suf heq tc htc
    have ht' : allTruthy rest := fun m hm => ht m (List.mem_cons_of_mem _ hm)
    cases pre with
    | nil =>
      simp only [List.nil_append, List.cons.injEq, Msg.assistant.injEq] at heq
      obtain ⟨⟨-, htcs⟩, -⟩ := heq
      rw [← htcs] at htc
      exact absurd htc (List.not_mem_nil tc)
    | cons p pre' =>
      simp only [List.cons_append, List.cons.injEq] at heq
      exact ih ht' pre' c tcs suf heq.2 tc htc
  | group c0 tcs0 grp rest hne hTool hNodup hIff hHead _ ih =>
    intro ht pre c tcs suf heq tc htc
    have ht' : allTruthy rest := fun m hm =>
      ht m (List.mem_cons_of_mem _ (List.mem_append_right _ hm))
    cases pre with
    | nil =>
      simp only [List.nil_append, List.cons.injEq, Msg.assistant.injEq] at heq
      obtain ⟨⟨-, htcs⟩, hsuf⟩ := heq
      subst htcs
      have hid : tc.id ≠ "" :=
        ht (Msg.assistant c0 tcs0) (List.mem_cons_self _ _) tc htc
      have hin : tc.id ∈ grpIds grp :=
        (hIff tc.id).mpr (mem_collectIds.mpr ⟨tc, htc, rfl, hid⟩)
      obtain ⟨m, hm, hmid⟩ := List.mem_filterMap.mp hin
      have htl := hTool m hm
      cases m with
      | tool k t =>
        simp only [toolId, Option.some.injEq] at hmid
        subst hmid
        obtain ⟨mid, g2, hgrp⟩ := List.append_of_mem hm
        refine ⟨mid, t, g2 ++ rest, ?_, ?_⟩
        · rw [← hsuf, hgrp]; simp
        · intro m' hm'
          exact hTool m' (hgrp ▸ List.mem_append_left _ hm')
      | user c' => simp [isTool] at htl
      | system c' => simp [isTool] at htl
      | assistant c' tcs' => simp [isTool] at htl
    | cons p pre' =>
      simp only [List.cons_append, List.cons.injEq] at heq
      obtain ⟨-, heq2⟩ := heq
      rcases List.append_eq_append_iff.mp heq2.symm with ⟨w, hgrp, hw⟩ | ⟨w, hpre, hrest⟩
      · cases w with
        | nil =>
          simp only [List.nil_append] at hw
          exact ih ht' [] c tcs suf (by simpa using hw.symm) tc htc
        | cons y w' =>
          simp only [List.cons_append, List.cons.injEq] at hw
          obtain ⟨rfl, -⟩ := hw
          have := hTool _ (hgrp ▸ List.mem_append_right pre' (List.mem_cons_self _ _))
          simp [isTool] at this
      · exact ih ht' w c tcs suf hrest tc htc

theorem invNoOrphans_of_Fixed {s : List Msg} (hf : Fixed s) : InvNoOrphans s := by
  induction hf with
  | nil =>
    intro pre k t suf heq
    exact absurd heq (by simp)
  | user c0 rest _ ih =>
    intro pre k t suf heq
    cases pre with
    | nil => simp at heq
    | cons p pre' =>
      simp only [List.cons_append, List.cons.injEq] at heq
      obtain ⟨rfl, heq2⟩ := heq
      obtain ⟨pre1, c', tcs', mid, hw, hk, hmid⟩ := ih pre' k t suf heq2
      exact ⟨Msg.user c0 :: pre1, c', tcs', mid, by simp [hw], hk, hmid⟩
  | system c0 rest _ ih =>
    intro pre k t suf heq
    cases pre with
    | nil => simp at heq
    | cons p pre' =>
      simp only [List.cons_append, List.cons.injEq] at heq
      obtain ⟨rfl, heq2⟩ := heq
      obtain ⟨pre1, c', tcs', mid, hw, hk, hmid⟩ := ih pre' k t suf heq2
      exact ⟨Msg.system c0 :: pre1, c', tcs', mid, by simp [hw], hk, hmid⟩
  | plain c0 rest _ ih =>
    intro pre k t suf heq
    cases pre with
    | nil => simp at heq
    | cons p pre' =>
      simp only [List.cons_append, List.cons.injEq] at heq
      obtain ⟨rfl, heq2⟩ := heq
      obtain ⟨pre1, c', tcs', mid, hw, hk, hmid⟩ := ih pre' k t suf heq2
      exact ⟨Msg.assistant c0 [] :: pre1, c', tcs', mid, by simp [hw], hk, hmid⟩
  | group c0 tcs0 grp rest hne hTool hNodup hIff hHead _ ih =>
    intro pre k t suf heq
    cases pre with
    | nil => simp at heq
    | cons p pre' =>
      simp only [List.cons_append, List.cons.injEq] at heq
      obtain ⟨rfl, heq2⟩ := heq
      rcases List.append_eq_append_iff.mp heq2.symm with ⟨w, hgrp, hw⟩ | ⟨w, hpre, hrest⟩
      · cases w with
        | nil =>
          simp only [List.nil_append] at hw
          rw [← hw] at hHead
          simp [headNotTool, isTool] at hHead
        | cons y w' =>
          simp only [List.cons_append, List.cons.injEq] at hw
          obtain ⟨rfl, hsuf⟩ := hw
          refine ⟨[], c0, tcs0, pre', by simp, ?_, ?_⟩
          · have hk : k ∈ grpIds grp :=
              List.mem_filterMap.mpr
                ⟨Msg.tool k t,
                  hgrp ▸ List.mem_append_right pre' (List.mem_cons_self _ _), rfl⟩
            exact collectIds_subset_idsOf ((hIff k).mp hk)
          · intro m' hm'
            exact mid_member_matching hTool hIff m'
              (hgrp ▸ List.mem_append_left _ hm')
      · obtain ⟨pre1, c', tcs', mid, hw2, hk, hmid⟩ := ih w k t suf hrest
        refine ⟨Msg.assistant c0 tcs0 :: (grp ++ pre1), c', tcs', mid, ?_, hk, hmid⟩
        simp [hpre, hw2]

/-- The validator never introduces empty tool-call ids: output assistant
messages carry subsets of input tool calls. -/
theorem allTruthy_validate {s : List Msg} (h : allTruthy s) :
    allTruthy (validate s) := by
  induction s using validate.induct with
  | case1 => rw [validate_nil]; exact h
  | case2 rest c tcs hemp ih =>
    have htcs : tcs = [] := by simpa [List.isEmpty_iff] using hemp
    subst htcs
    rw [validate_plain]
    intro m hm
    rcases List.mem_cons.mp hm with rfl | hm'
    · simp [msgToolCalls]
    · exact ih (fun m' hm' => h m' (List.mem_cons_of_mem _ hm')) m hm'
  | case3 rest c tcs hemp out ih =>
    have h' : tcs ≠ [] := by simpa [List.isEmpty_iff] using hemp
    obtain ⟨sTool, sSub, sNodup, sIff, sDel, sDelMem, sRestMem⟩ :=
      collectSeq_spec (collectIds tcs) rest (collectIds_nodup tcs)
    have hrest : allTruthy rest := fun m hm => h m (List.mem_cons_of_mem _ hm)
    have hrec : allTruthy (validate
        ((collectSeq (collectIds tcs) rest).delayed ++
          (collectSeq (collectIds tcs) rest).rest)) := by
      refine ih fun m hm => ?_
      rcases List.mem_append.mp hm with hm' | hm'
      · exact hrest m (sDelMem m hm')
      · exact hrest m (sRestMem m hm')
    rw [validate_group c tcs rest h']
    intro m hm
    rcases List.mem_cons.mp hm with rfl | hm'
    · split
      · exact h (Msg.assistant c tcs) (List.mem_cons_self _ _)
      · split
        · simp [msgToolCalls]
        · intro tc htc
          simp only [msgToolCalls] at htc
          exact h (Msg.assistant c tcs) (List.mem_cons_self _ _) tc
            (List.mem_of_mem_filter htc)
    · rcases List.mem_append.mp hm' with hg | hv
      · have ht := sTool m hg
        cases m with
        | tool k t => simp [msgToolCalls]
        | user c' => simp [isTool] at ht
        | system c' => simp [isTool] at ht
        | assistant c' tcs' => simp [isTool] at ht
      · exact hrec m hv
  | case4 rest k t ih =>
    rw [validate_tool]
    exact ih (fun m hm => h m (List.mem_cons_of_mem _ hm))
  | case5 rest c ih =>
    rw [validate_user]
    intro m hm
    rcases List.mem_cons.mp hm with rfl | hm'
    · simp [msgToolCalls]
    · exact ih (fun m' hm'' => h m' (List.mem_cons_of_mem _ hm'')) m hm'
  | case6 rest c ih =>
    rw [validate_system]
    intro m hm
    rcases List.mem_cons.mp hm with rfl | hm'
    · simp [msgToolCalls]
    · exact ih (fun m' hm'' => h m' (List.mem_cons_of_mem _ hm'')) m hm'

/-- Claim C1 (amended): for every input list in which each assistant
tool call carries a non-empty id, the validator's output satisfies the
pairing invariant I1, the no-orphans invariant I2 and the completeness
invariant I3.  (An assistant tool call whose id is empty is never added to
the pending-id set, so it survives validation unanswered and I1 fails on
such inputs; see the counterexample.) -/
theorem C1_validate_invariants (s : List Msg) (h : allTruthy s) :
    InvPairing (validate s) ∧ InvNoOrphans (validate s) ∧
      InvCompleteness (validate s) :=
  ⟨invPairing_of_Fixed (Fixed_validate s) (allTruthy_validate h),
   invNoOrphans_of_Fixed (Fixed_validate s),
   invCompleteness_of_Fixed (Fixed_validate s) (allTruthy_validate h)⟩

/-- Witness for C1 at a concrete input with non-empty tool-call ids. -/
theorem C1_validate_invariants_witness :
    allTruthy
      [Msg.user "go", Msg.assistant "" [⟨"call_A", "search", "q"⟩],
       Msg.tool "call_A" "ok"] ∧
    (InvPairing (validate
        [Msg.user "go", Msg.assistant "" [⟨"call_A", "search", "q"⟩],
         Msg.tool "call_A" "ok"]) ∧
     InvNoOrphans (validate
        [Msg.user "go", Msg.assistant "" [⟨"call_A", "search", "q"⟩],
         Msg.tool "call_A" "ok"]) ∧
     InvCompleteness (validate
        [Msg.user "go", Msg.assistant "" [⟨"call_A", "search", "q"⟩],
         Msg.tool "call_A" "ok"])) :=
  ⟨by decide,
   C1_validate_invariants
     [Msg.user "go", Msg.assistant "" [⟨"call_A", "search", "q"⟩],
      Msg.tool "call_A" "ok"] (by decide)⟩

/-- Counterexample to C1 as stated: on an assistant message holding a single
tool call with an empty id, the validator returns the input unchanged, and
the output violates the pairing invariant I1 (the tool call is never
answered by any tool result). -/
theorem C1_counterexample :
    ¬(InvPairing (validate [Msg.assistant "t" [⟨"", "f", "a"⟩]]) ∧
      InvNoOrphans (validate [Msg.assistant "t" [⟨"", "f", "a"⟩]]) ∧
      InvCompleteness (validate [Msg.assistant "t" [⟨"", "f", "a"⟩]])) := by
  have hval : validate [Msg.assistant "t" [⟨"", "f", "a"⟩]] =
      [Msg.assistant "t" [⟨"", "f", "a"⟩]] := by
    simp [validate, collectSeq, collectIds, insertId]
  rw [hval]
  rintro ⟨h1, -, -⟩
  obtain ⟨mid, t, suf2, hsuf, -⟩ :=
    h1 [] "t" [⟨"", "f", "a"⟩] [] rfl ⟨"", "f", "a"⟩ (by simp)
  cases mid <;> simp at hsuf

/-- Claim C2: the tool-call sequence validator is idempotent: running the
validator on its own output returns that output unchanged. -/
theorem C2_validate_idempotent (s : List Msg) :
    validate (validate s) = validate s :=
  validate_eq_of_Fixed (Fixed_validate s)

/-- Claim C3: on the canonical interrupted-tool-call input, the validator
demotes the assistant message to a plain assistant message with its original
(empty) text, drops the now-orphaned tool result and keeps the two
interrupting user messages in their relative order. -/
theorem C3_interrupted_tool_call :
    validate
      [Msg.user "go",
       Msg.assistant "" [⟨"call_A", "search", "\x7b\x7d"⟩],
       Msg.user "stop",
       Msg.tool "call_A" "result",
       Msg.user "hi"] =
    [Msg.user "go", Msg.assistant "" [], Msg.user "stop", Msg.user "hi"] := by
  simp [validate, collectSeq, collectIds, insertId]

/-! ## Token manager (`core/oauth2_token_manager.py`) -/

/-- The sticky dual-path connection mode of the token manager. -/
inductive ConnectionMode where
  | direct
  | proxy
deriving DecidableEq, Repr

/-- The secondary mode for a given primary mode
(`ConnectionMode.PROXY if primary == DIRECT else ConnectionMode.DIRECT`). -/
def flipMode : ConnectionMode → ConnectionMode
  | .direct => .proxy
  | .proxy => .direct

/-- Outcome of one transport attempt on one mode: a server response with a
status code and a body, or a transport-level error (connect, TLS, read
timeout, DNS), modelled as what `requests.request` produces before
`raise_for_status` is applied. -/
inductive Attempt (β : Type) where
  | resp (status : Nat) (body : β)
  | transportErr
deriving DecidableEq, Repr

/-- Network environment seen by one `request` call: the `FORCE_PROXY` flag
and `HTTP_PROXY_URL` re-read from the configuration, and an oracle giving
the outcome of attempting the request on each mode. -/
structure NetEnv (β : Type) where
  forceProxy : Bool
  proxyUrl : Option String
  attempt : ConnectionMode → Attempt β

/-- `response.raise_for_status()` raises `requests.exceptions.HTTPError`
(a `RequestException`) for 4xx/5xx responses; otherwise the response is
returned.  `none` models a raised `RequestException` (transport error or
HTTP error alike — both are caught by the same `except` clause). -/
def runAttempt {β : Type} : Attempt β → Option (Nat × β)
  | .resp s b => if 400 ≤ s ∧ s < 600 then none else some (s, b)
  | .transportErr => none

/-- Result of `OCAOauth2TokenManager.request`: a successful response or the
`ConnectionError` it raises when the attempt(s) failed. -/
inductive ReqResult (β : Type) where
  | success (status : Nat) (body : β)
  | connErrorRaised
deriving DecidableEq, Repr

/-- `_update_connection_mode_from_env`: if `FORCE_PROXY` is set, the sticky
`connection_mode` is switched to `PROXY`; otherwise it is left unchanged. -/
def updateModeFromEnv {β : Type} (env : NetEnv β) (mode : ConnectionMode) :
    ConnectionMode :=
  if env.forceProxy then ConnectionMode.proxy else mode

/-- The effective primary mode of a `request` call: the (env-updated) sticky
mode, except that a PROXY primary with no proxy URL configured falls back to
DIRECT (`_get_proxies` returns `None` and the modes are swapped). -/
def effPrimary {β : Type} (env : NetEnv β) (mode : ConnectionMode) :
    ConnectionMode :=
  let mode1 := updateModeFromEnv env mode
  if mode1 = ConnectionMode.proxy ∧ env.proxyUrl.isNone then
    ConnectionMode.direct
  else mode1

/-- `OCAOauth2TokenManager.request` from `core/oauth2_token_manager.py`,
returning the call result together with the `connection_mode` left behind.
The first attempt uses the effective primary mode; on any
`RequestException` (transport error or a 4xx/5xx response via
`raise_for_status`), if `_do_retry` is false a `ConnectionError` is raised
with the mode unchanged, otherwise `connection_mode` is flipped to the
secondary mode and the request is attempted once more (failing with
`ConnectionError` if the secondary mode is PROXY without a proxy URL, or if
the second attempt also fails). -/
def tmRequest {β : Type} (env : NetEnv β) (mode0 : ConnectionMode)
    (doRetry : Bool) : ReqResult β × ConnectionMode :=
  let mode1 := updateModeFromEnv env mode0
  let primary := effPrimary env mode0
  let secondary := flipMode primary
  match runAttempt (env.attempt primary) with
  | some (s, b) => (.success s b, mode1)
  | none =>
    if !doRetry then (.connErrorRaised, mode1)
    else
      if secondary = ConnectionMode.proxy ∧ env.proxyUrl.isNone then
        (.connErrorRaised, secondary)
      else
        match runAttempt (env.attempt secondary) with
        | some (s, b) => (.success s b, secondary)
        | none => (.connErrorRaised, secondary)

/-- Parsed body of a successful token-refresh response
(`response_data["access_token"]`, `["expires_in"]`, optional rotated
`"refresh_token"`). -/
structure TokenResp where
  accessToken : String
  expiresIn : Nat
  refreshToken : Option String
deriving DecidableEq, Repr

/-- In-memory token-manager state relevant to `get_access_token`:
the sticky connection mode and the cached token with its expiry
(seconds since epoch). -/
structure TMState where
  mode : ConnectionMode
  accessToken : Option String
  expiresAt : Option Nat
deriving DecidableEq, Repr

/-- Environment of a refresh: the network environment of the refresh POST
and the `OAUTH_REFRESH_TOKEN` read from the configuration file. -/
structure RefreshEnv where
  net : NetEnv TokenResp
  refreshTokenCfg : Option String

/-- Outcome of `get_access_token`. -/
inductive TokenOutcome where
  | token (t : String)
  | connErrorRaised
  | valueErrorRaised
deriving DecidableEq, Repr

/-- `_refresh_tokens`: requires a refresh token in the configuration, then
POSTs to the token endpoint via `self.request(..., _do_retry=False, ...)`.
On success the access token and `expires_at = now + expires_in - 60` are
stored in memory; a `ConnectionError` from `request` propagates. -/
def refreshTokens (env : RefreshEnv) (st : TMState) (now : Nat) :
    Option TokenOutcome × TMState :=
  match env.refreshTokenCfg with
  | none => (some .valueErrorRaised, st)
  | some _ =>
    match tmRequest env.net st.mode false with
    | (.connErrorRaised, mode') => (some .connErrorRaised, { st with mode := mode' })
    | (.success _ body, mode') =>
      (none,
       { mode := mode',
         accessToken := some body.accessToken,
         expiresAt := some (now + body.expiresIn - 60) })

/-- `get_access_token`: return the cached token while it is truthy and not
expired; otherwise run `_refresh_tokens` and return the refreshed token
(raising `ValueError` if it is still falsy afterwards). -/
def getAccessToken (env : RefreshEnv) (st : TMState) (now : Nat) :
    TokenOutcome × TMState :=
  match st.accessToken, st.expiresAt with
  | some t, some e =>
    if t ≠ "" ∧ now < e then (.token t, st)
    else getAccessTokenRefresh env st now
  | _, _ => getAccessTokenRefresh env st now
where
  /-- The refresh path of `get_access_token`. -/
  getAccessTokenRefresh (env : RefreshEnv) (st : TMState) (now : Nat) :
      TokenOutcome × TMState :=
    match refreshTokens env st now with
    | (some err, st') => (err, st')
    | (none, st') =>
      match st'.accessToken with
      | some t => if t ≠ "" then (.token t, st') else (.valueErrorRaised, st')
      | none => (.valueErrorRaised, st')

/-- Claim C4 (amended): when `get_access_token` misses its cache and runs a
refresh whose POST fails at the transport level on the effective primary
mode, the manager raises `ConnectionError` without flipping
`connection_mode` and without attempting the secondary mode: the refresh
request is issued with retry disabled (`_do_retry=False` in
`_refresh_tokens`).  The flip-and-retry failover applies only to requests
issued with retry enabled. -/
theorem C4_refresh_no_failover (env : RefreshEnv) (st : TMState) (now : Nat)
    (rt : String)
    (hTok : st.accessToken = none)
    (hrt : env.refreshTokenCfg = some rt)
    (hfail : env.net.attempt (effPrimary env.net st.mode) = Attempt.transportErr) :
    getAccessToken env st now =
      (TokenOutcome.connErrorRaised,
       { st with mode := updateModeFromEnv env.net st.mode }) := by
  have hreq : tmRequest env.net st.mode false =
      (ReqResult.connErrorRaised, updateModeFromEnv env.net st.mode) := by
    simp only [tmRequest, hfail, runAttempt, Bool.not_false, if_true]
  have hrefresh : refreshTokens env st now =
      (some TokenOutcome.connErrorRaised,
       { st with mode := updateModeFromEnv env.net st.mode }) := by
    simp only [refreshTokens, hrt, hreq]
  simp only [getAccessToken, hTok, getAccessToken.getAccessTokenRefresh, hrefresh]

/-- Witness for C4 at a concrete input: the refresh POST times out on the
direct primary; the call raises `ConnectionError` and the sticky mode is
left at DIRECT. -/
theorem C4_refresh_no_failover_witness :
    getAccessToken
      ⟨⟨false, some "http://proxy:3128",
        fun m => match m with
          | ConnectionMode.direct => Attempt.transportErr
          | ConnectionMode.proxy => Attempt.resp 200 ⟨"tok", 3600, none⟩⟩,
        some "rt"⟩
      ⟨ConnectionMode.direct, none, none⟩ 5 =
      (TokenOutcome.connErrorRaised, ⟨ConnectionMode.direct, none, none⟩) :=
  C4_refresh_no_failover _ _ 5 "rt" rfl rfl rfl

/-- Counterexample to C4 as stated: the refresh POST fails in transport on
DIRECT while a retry on PROXY would have succeeded (the oracle answers 200
with a token on PROXY), yet `get_access_token` raises `ConnectionError` and
leaves `connection_mode` at DIRECT: no flip, no second attempt. -/
theorem C4_counterexample :
    getAccessToken
      ⟨⟨false, some "http://proxy:3128",
        fun m => match m with
          | ConnectionMode.direct => Attempt.transportErr
          | ConnectionMode.proxy => Attempt.resp 200 ⟨"newTok", 3600, some "newRt"⟩⟩,
        some "oldRt"⟩
      ⟨ConnectionMode.direct, none, none⟩ 0 =
      (TokenOutcome.connErrorRaised, ⟨ConnectionMode.direct, none, none⟩) ∧
    runAttempt
      ((fun m => match m with
          | ConnectionMode.direct => Attempt.transportErr
          | ConnectionMode.proxy => Attempt.resp 200
              (⟨"newTok", 3600, some "newRt"⟩ : TokenResp))
        ConnectionMode.proxy) =
      some (200, ⟨"newTok", 3600, some "newRt"⟩) := by
  constructor
  · rfl
  · rfl

/-- Two environments that agree on the force-proxy flag, the proxy URL and
the outcome of the primary and secondary attempts give identical `request`
behaviour. -/
theorem tmRequest_congr {β : Type} (env' env : NetEnv β)
    (mode0 : ConnectionMode) (doRetry : Bool)
    (hf : env'.forceProxy = env.forceProxy)
    (hu : env'.proxyUrl = env.proxyUrl)
    (hpa : runAttempt (env'.attempt (effPrimary env mode0)) =
      runAttempt (env.attempt (effPrimary env mode0)))
    (hsa : runAttempt (env'.attempt (flipMode (effPrimary env mode0))) =
      runAttempt (env.attempt (flipMode (effPrimary env mode0)))) :
    tmRequest env' mode0 doRetry = tmRequest env mode0 doRetry := by
  have h1 : updateModeFromEnv env' mode0 = updateModeFromEnv env mode0 := by
    simp [updateModeFromEnv, hf]
  have h2 : effPrimary env' mode0 = effPrimary env mode0 := by
    simp [effPrimary, updateModeFromEnv, hf, hu]
  simp only [tmRequest, h1, h2, hpa, hsa, hu]

/-- Claim C5 (amended): a 4xx/5xx response from the server is handled by
`request` exactly like a transport-level failure, because
`raise_for_status()` is called inside the `try` block whose `except` clause
catches every `RequestException`: the call behaves identically to one whose
primary attempt is a transport error, and with retry enabled the
direct↔proxy failover fires (`connection_mode` flips to the secondary
mode); the status and body of the error response are not propagated. -/
theorem C5_http_error_like_transport {β : Type} (env : NetEnv β)
    (mode0 : ConnectionMode) (doRetry : Bool) (s : Nat) (b : β)
    (hresp : env.attempt (effPrimary env mode0) = Attempt.resp s b)
    (h4 : 400 ≤ s) (h5 : s < 600) :
    tmRequest env mode0 doRetry =
      tmRequest
        { env with
          attempt := fun m =>
            if m = effPrimary env mode0 then Attempt.transportErr
            else env.attempt m }
        mode0 doRetry ∧
    (doRetry = true →
      (tmRequest env mode0 doRetry).2 = flipMode (effPrimary env mode0)) := by
  have hP : runAttempt (env.attempt (effPrimary env mode0)) = none := by
    rw [hresp]; simp [runAttempt, h4, h5]
  have hflip : flipMode (effPrimary env mode0) ≠ effPrimary env mode0 := by
    cases effPrimary env mode0 <;> simp [flipMode]
  constructor
  · refine (tmRequest_congr
      { env with
        attempt := fun m =>
          if m = effPrimary env mode0 then Attempt.transportErr
          else env.attempt m }
      env mode0 doRetry rfl rfl ?_ ?_).symm
    · simp [runAttempt, hresp, h4, h5]
    · simp [hflip]
  · intro hdr
    subst hdr
    simp only [tmRequest, hP, Bool.not_true, Bool.false_eq_true, if_false]
    split
    · rfl
    · split <;> rfl

/-- Witness for C5 at a concrete input: a 404 from the direct primary is
handled exactly as a transport error would be, and the sticky mode flips to
PROXY. -/
theorem C5_http_error_like_transport_witness :
    (400 ≤ 404 ∧ 404 < 600) ∧
    (tmRequest (β := String)
        ⟨false, some "http://proxy:3128",
          fun m => match m with
            | ConnectionMode.direct => Attempt.resp 404 "not found"
            | ConnectionMode.proxy => Attempt.transportErr⟩
        ConnectionMode.direct true =
      tmRequest
        { (⟨false, some "http://proxy:3128",
            fun m => match m with
              | ConnectionMode.direct => Attempt.resp 404 "not found"
              | ConnectionMode.proxy => Attempt.transportErr⟩ : NetEnv String) with
          attempt := fun m =>
            if m = effPrimary (β := String)
                ⟨false, some "http://proxy:3128",
                  fun m => match m with
                    | ConnectionMode.direct => Attempt.resp 404 "not found"
                    | ConnectionMode.proxy => Attempt.transportErr⟩
                ConnectionMode.direct then Attempt.transportErr
            else
              (fun m => match m with
                | ConnectionMode.direct => Attempt.resp 404 "not found"
                | ConnectionMode.proxy => Attempt.transportErr) m }
        ConnectionMode.direct true ∧
      (true = true →
        (tmRequest (β := String)
            ⟨false, some "http://proxy:3128",
              fun m => match m with
                | ConnectionMode.direct => Attempt.resp 404 "not found"
                | ConnectionMode.proxy => Attempt.transportErr⟩
            ConnectionMode.direct true).2 =
          flipMode (effPrimary
            ⟨false, some "http://proxy:3128",
              fun m => match m with
                | ConnectionMode.direct => Attempt.resp 404 "not found"
                | ConnectionMode.proxy => Attempt.transportErr⟩
            ConnectionMode.direct))) :=
  ⟨by decide,
   C5_http_error_like_transport _ ConnectionMode.direct true 404 "not found"
     rfl (by decide) (by decide)⟩

/-- Counterexample to C5 as stated: the direct primary answers 500, and with
retry enabled the call does not propagate an HTTP error with that status;
it flips `connection_mode` to PROXY and returns the proxy attempt's 200
response as a success. -/
theorem C5_counterexample :
    tmRequest (β := String)
      ⟨false, some "http://proxy:3128",
        fun m => match m with
          | ConnectionMode.direct => Attempt.resp 500 "server error"
          | ConnectionMode.proxy => Attempt.resp 200 "ok"⟩
      ConnectionMode.direct true =
      (ReqResult.success 200 "ok", ConnectionMode.proxy) := by
  rfl

/-! ## Upstream tool-call reconstruction (`core/llm.py`, `_generate`/`_astream`) -/

/-- Partial `function` object of a streamed tool-call delta: optional `name`
and `arguments` fragments.  `none` models an absent key, `some ""` a present
but empty value. -/
structure FnDelta where
  name : Option String
  arguments : Option String
deriving DecidableEq, Repr

/-- One streamed tool-call delta (`chunk.choices[0].delta.tool_calls[j]`):
optional `index`, `id`, `type` and partial `function` object. -/
structure TCDelta where
  index : Option Nat
  id : Option String
  type : Option String
  function : Option FnDelta
deriving DecidableEq, Repr

/-- Python string truthiness of an optional string: present and non-empty. -/
def optTruthy : Option String → Bool
  | none => false
  | some s => s ≠ ""

/-- A builder-map key: `("i", index)` or `("id", id)`. -/
inductive BKey where
  | idx (i : Nat)
  | idStr (t : String)
deriving DecidableEq, Repr

/-- Builder key from `_generate`: `("i", index)` if `index` is present,
else `("id", id)` if `id` is present, else `("i", 0)`. -/
def tcKey (tc : TCDelta) : BKey :=
  match tc.index with
  | some i => BKey.idx i
  | none =>
    match tc.id with
    | some t => BKey.idStr t
    | none => BKey.idx 0

/-- A tool-call builder: accumulated `type`, `id`, `function.name` and the
string-concatenated `function.arguments`. -/
structure Builder where
  type : String
  id : Option String
  name : Option String
  arguments : String
deriving DecidableEq, Repr

/-- Fresh builder for a delta:
`{"type": "function", "id": tid, "function": {"name": None, "arguments": ""}}`. -/
def initBuilder (tc : TCDelta) : Builder :=
  ⟨"function", tc.id, none, ""⟩

/-- Mutation `if "type" in tc and tc["type"]: b["type"] = tc["type"]`. -/
def mergeType (b : Builder) (tc : TCDelta) : Builder :=
  match tc.type with
  | some s => if s ≠ "" then { b with type := s } else b
  | none => b

/-- Mutation `if tid and not b.get("id"): b["id"] = tid`. -/
def mergeId (b : Builder) (tc : TCDelta) : Builder :=
  if optTruthy tc.id ∧ optTruthy b.id = false then { b with id := tc.id } else b

/-- Mutation `if "name" in fdelta and fdelta["name"]: b["function"]["name"] = fdelta["name"]`. -/
def mergeName (b : Builder) (f : FnDelta) : Builder :=
  match f.name with
  | some s => if s ≠ "" then { b with name := some s } else b
  | none => b

/-- Mutation `if "arguments" in fdelta and fdelta["arguments"]:
b["function"]["arguments"] += fdelta["arguments"]`. -/
def mergeArgs (b : Builder) (f : FnDelta) : Builder :=
  match f.arguments with
  | some s => if s ≠ "" then { b with arguments := b.arguments ++ s } else b
  | none => b

/-- Merge one delta into a builder (`_generate` lines 623-633): a truthy
`type` overwrites, a truthy `id` is taken only when the builder's id is
falsy, a truthy `function.name` overwrites, and a truthy
`function.arguments` fragment is appended (`fdelta = tc.get("function") or {}`). -/
def mergeFields (b : Builder) (tc : TCDelta) : Builder :=
  mergeArgs
    (mergeName (mergeId (mergeType b tc) tc) (tc.function.getD ⟨none, none⟩))
    (tc.function.getD ⟨none, none⟩)

/-- Association-list lookup over the builder map (models `key in tool_builders`
and `tool_builders[key]`). -/
def lookupB : List (BKey × Builder) → BKey → Option Builder
  | [], _ => none
  | (k, b) :: rest, key => if k = key then some b else lookupB rest key

/-- Process one tool-call delta: update the existing builder for its key, or
insert a fresh one at the end (appending the key to the order list). -/
def stepBuilders (bs : List (BKey × Builder)) (tc : TCDelta) :
    List (BKey × Builder) :=
  match lookupB bs (tcKey tc) with
  | some _ => bs.map (fun p => if p.1 = tcKey tc then (p.1, mergeFields p.2 tc) else p)
  | none => bs ++ [(tcKey tc, mergeFields (initBuilder tc) tc)]

/-- The builder map after consuming a whole stream of tool-call deltas, in
key-insertion order (`tool_builders` together with `order`). -/
def buildToolCalls (deltas : List TCDelta) : List (BKey × Builder) :=
  deltas.foldl stepBuilders []

/-- The sealed `tool_calls` list (`final_tool_calls`): the builders in
insertion order.  In this model `arguments` is a `String` by construction,
so the coercion steps of lines 643-649 are identities. -/
def finalToolCalls (deltas : List TCDelta) : Option (List Builder) :=
  if (buildToolCalls deltas).isEmpty then none
  else some ((buildToolCalls deltas).map Prod.snd)

/-- First-appearance deduplicated keys of a delta stream. -/
def firstKeys (deltas : List TCDelta) : List BKey :=
  deltas.foldl
    (fun (acc : List BKey) tc =>
      if tcKey tc ∈ acc then acc else acc ++ [tcKey tc]) []

/-- The arguments fragment a delta carries (empty if absent). -/
def fragArgs (tc : TCDelta) : String :=
  ((tc.function.getD ⟨none, none⟩).arguments).getD ""

/-- Concatenation of the argument fragments carried by the deltas of one
builder key, in arrival order. -/
def argsConcat (k : BKey) : List TCDelta → String
  | [] => ""
  | tc :: rest =>
    if tcKey tc = k then fragArgs tc ++ argsConcat k rest else argsConcat k rest

/-- A delta's function name is absent or empty. -/
def fnNameFalsy (tc : TCDelta) : Prop :=
  (tc.function.getD ⟨none, none⟩).name = none ∨
    (tc.function.getD ⟨none, none⟩).name = some ""

instance (tc : TCDelta) : Decidable (fnNameFalsy tc) := by
  unfold fnNameFalsy; infer_instance

theorem mergeType_args (b : Builder) (tc : TCDelta) :
    (mergeType b tc).arguments = b.arguments := by
  unfold mergeType; split <;> (try split) <;> rfl

theorem mergeId_args (b : Builder) (tc : TCDelta) :
    (mergeId b tc).arguments = b.arguments := by
  unfold mergeId; split <;> rfl

theorem mergeName_args (b : Builder) (f : FnDelta) :
    (mergeName b f).arguments = b.arguments := by
  unfold mergeName; split <;> (try split) <;> rfl

theorem mergeArgs_args (b : Builder) (f : FnDelta) :
    (mergeArgs b f).arguments = b.arguments ++ f.arguments.getD "" := by
  unfold mergeArgs
  rcases f with ⟨n, a⟩
  rcases a with _ | s
  · simp
  · by_cases hs : s = "" <;> simp [hs]

theorem mergeFields_args (b : Builder) (tc : TCDelta) :
    (mergeFields b tc).arguments = b.arguments ++ fragArgs tc := by
  unfold mergeFields fragArgs
  rw [mergeArgs_args, mergeName_args, mergeId_args, mergeType_args]

theorem mergeType_id (b : Builder) (tc : TCDelta) :
    (mergeType b tc).id = b.id := by
  unfold mergeType; split <;> (try split) <;> rfl

theorem mergeId_id_of_none (b : Builder) (tc : TCDelta) (h : tc.id = none) :
    (mergeId b tc).id = b.id := by
  unfold mergeId
  simp [h, optTruthy]

theorem mergeName_id (b : Builder) (f : FnDelta) :
    (mergeName b f).id = b.id := by
  unfold mergeName; split <;> (try split) <;> rfl

theorem mergeArgs_id (b : Builder) (f : FnDelta) :
    (mergeArgs b f).id = b.id := by
  unfold mergeArgs; split <;> (try split) <;> rfl

theorem mergeFields_id (b : Builder) (tc : TCDelta) (h : tc.id = none) :
    (mergeFields b tc).id = b.id := by
  unfold mergeFields
  rw [mergeArgs_id, mergeName_id, mergeId_id_of_none _ _ h, mergeType_id]

theorem mergeType_name (b : Builder) (tc : TCDelta) :
    (mergeType b tc).name = b.name := by
  unfold mergeType; split <;> (try split) <;> rfl

theorem mergeId_name (b : Builder) (tc : TCDelta) :
    (mergeId b tc).name = b.name := by
  unfold mergeId; split <;> rfl

theorem mergeName_name_of_falsy (b : Builder) (f : FnDelta)
    (h : f.name = none ∨ f.name = some "") : (mergeName b f).name = b.name := by
  unfold mergeName
  rcases h with h | h <;> (rw [h]; try simp)

theorem mergeArgs_name (b : Builder) (f : FnDelta) :
    (mergeArgs b f).name = b.name := by
  unfold mergeArgs; split <;> (try split) <;> rfl

theorem mergeFields_name (b : Builder) (tc : TCDelta) (h : fnNameFalsy tc) :
    (mergeFields b tc).name = b.name := by
  unfold mergeFields
  rw [mergeArgs_name, mergeName_name_of_falsy _ _ h, mergeId_name, mergeType_name]

theorem lookupB_eq_none {bs : List (BKey × Builder)} {k : BKey} :
    lookupB bs k = none ↔ k ∉ bs.map Prod.fst := by
  induction bs with
  | nil => simp [lookupB]
  | cons p rest ih =>
    rcases p with ⟨k0, b0⟩
    by_cases hk : k0 = k
    · subst hk
      simp [lookupB]
    · simp [lookupB, hk, ih, Ne.symm hk]

theorem lookupB_append_last {bs : List (BKey × Builder)} {key k : BKey}
    {b : Builder} :
    lookupB (bs ++ [(key, b)]) k =
      match lookupB bs k with
      | some b0 => some b0
      | none => if key = k then some b else none := by
  induction bs with
  | nil => simp [lookupB]
  | cons p rest ih =>
    rcases p with ⟨k0, b0⟩
    by_cases hk : k0 = k
    · subst hk
      simp [lookupB]
    · simp [lookupB, hk, ih]

theorem lookupB_map_update {bs : List (BKey × Builder)} {key k : BKey}
    {tc : TCDelta} :
    lookupB (bs.map fun p => if p.1 = key then (p.1, mergeFields p.2 tc) else p) k =
      (lookupB bs k).map (fun b => if k = key then mergeFields b tc else b) := by
  induction bs with
  | nil => simp [lookupB]
  | cons p rest ih =>
    rcases p with ⟨k0, b0⟩
    simp only [List.map_cons]
    by_cases hk0 : k0 = key
    · subst hk0
      rw [if_pos rfl]
      by_cases hk : k0 = k
      · subst hk
        simp [lookupB]
      · simp [lookupB, hk, ih]
    · rw [if_neg hk0]
      by_cases hk : k0 = k
      · subst hk
        simp [lookupB, hk0]
      · simp [lookupB, hk, ih]

theorem lookupB_stepBuilders (bs : List (BKey × Builder)) (tc : TCDelta)
    (k : BKey) :
    lookupB (stepBuilders bs tc) k =
      if k = tcKey tc then
        some (match lookupB bs (tcKey tc) with
          | some b0 => mergeFields b0 tc
          | none => mergeFields (initBuilder tc) tc)
      else lookupB bs k := by
  unfold stepBuilders
  cases hb : lookupB bs (tcKey tc) with
  | some b0 =>
    rw [lookupB_map_update]
    by_cases hk : k = tcKey tc
    · subst hk
      simp [hb]
    · simp [hk]
  | none =>
    rw [lookupB_append_last]
    by_cases hk : k = tcKey tc
    · subst hk
      simp [hb]
    · cases h2 : lookupB bs k with
      | some b1 => simp [hk]
      | none =>
        have hk' : ¬tcKey tc = k := fun h => hk h.symm
        simp [hk, hk']

theorem stepBuilders_fst (bs : List (BKey × Builder)) (tc : TCDelta) :
    (stepBuilders bs tc).map Prod.fst =
      if tcKey tc ∈ bs.map Prod.fst then bs.map Prod.fst
      else bs.map Prod.fst ++ [tcKey tc] := by
  unfold stepBuilders
  cases hb : lookupB bs (tcKey tc) with
  | some b0 =>
    have hmem : tcKey tc ∈ bs.map Prod.fst := by
      by_contra hn
      rw [← lookupB_eq_none] at hn
      rw [hb] at hn
      exact Option.noConfusion hn
    rw [if_pos hmem]
    rw [List.map_map]
    refine List.map_congr_left fun p _ => ?_
    by_cases hp : p.1 = tcKey tc <;> simp [hp]
  | none =>
    rw [if_neg (lookupB_eq_none.mp hb)]
    simp

theorem stepBuilders_fst_nodup {bs : List (BKey × Builder)} (tc : TCDelta)
    (h : (bs.map Prod.fst).Nodup) :
    ((stepBuilders bs tc).map Prod.fst).Nodup := by
  rw [stepBuilders_fst]
  by_cases hm : tcKey tc ∈ bs.map Prod.fst
  · simpa [hm] using h
  · rw [if_neg hm]
    rw [List.nodup_append]
    exact ⟨h, List.nodup_singleton _,
      fun a ha hb => hm ((List.mem_singleton.mp hb) ▸ ha)⟩

theorem mem_iff_lookupB {bs : List (BKey × Builder)} {k : BKey} {b : Builder}
    (h : (bs.map Prod.fst).Nodup) :
    (k, b) ∈ bs ↔ lookupB bs k = some b := by
  induction bs with
  | nil => simp [lookupB]
  | cons p rest ih =>
    rcases p with ⟨k0, b0⟩
    simp only [List.map_cons, List.nodup_cons] at h
    by_cases hk : k0 = k
    · subst hk
      have hl : lookupB ((k0, b0) :: rest) k0 = some b0 := by
        simp [lookupB]
      rw [hl]
      simp only [List.mem_cons, Prod.mk.injEq, true_and, Option.some.injEq]
      constructor
      · rintro (rfl | hmem)
        · rfl
        · exact absurd (List.mem_map.mpr ⟨(k0, b), hmem, rfl⟩) h.1
      · intro heq
        exact Or.inl heq.symm
    · simp only [lookupB, if_neg hk, List.mem_cons]
      rw [← ih h.2]
      constructor
      · rintro (heq | hmem)
        · exact absurd (congrArg Prod.fst heq).symm hk
        · exact hmem
      · exact Or.inr

theorem buildToolCalls_fst_aux (deltas : List TCDelta)
    (bs : List (BKey × Builder)) :
    (deltas.foldl stepBuilders bs).map Prod.fst =
      deltas.foldl
        (fun (acc : List BKey) tc =>
          if tcKey tc ∈ acc then acc else acc ++ [tcKey tc])
        (bs.map Prod.fst) := by
  induction deltas generalizing bs with
  | nil => simp
  | cons tc rest ih =>
    simp only [List.foldl_cons]
    rw [ih, stepBuilders_fst]

/-- The builders' keys after a whole stream are the first-appearance
deduplicated delta keys. -/
theorem buildToolCalls_fst (deltas : List TCDelta) :
    (buildToolCalls deltas).map Prod.fst = firstKeys deltas := by
  simpa [buildToolCalls, firstKeys] using buildToolCalls_fst_aux deltas []

theorem buildToolCalls_fst_nodup (deltas : List TCDelta) :
    ((buildToolCalls deltas).map Prod.fst).Nodup := by
  unfold buildToolCalls
  generalize hbs : ([] : List (BKey × Builder)) = bs
  have h : (bs.map Prod.fst).Nodup := by simp [← hbs]
  clear hbs
  induction deltas generalizing bs with
  | nil => simpa using h
  | cons tc rest ih =>
    simp only [List.foldl_cons]
    exact ih _ (stepBuilders_fst_nodup tc h)

theorem args_fold (deltas : List TCDelta) :
    ∀ (bs : List (BKey × Builder)), (bs.map Prod.fst).Nodup →
      ∀ (k : BKey) (b : Builder), (k, b) ∈ deltas.foldl stepBuilders bs →
      (match lookupB bs k with
       | some b0 => b.arguments = b0.arguments ++ argsConcat k deltas
       | none => b.arguments = argsConcat k deltas) := by
  induction deltas with
  | nil =>
    intro bs hn k b hmem
    have := (mem_iff_lookupB hn).mp hmem
    rw [this]
    simp [argsConcat]
  | cons tc rest ih =>
    intro bs hn k b hmem
    simp only [List.foldl_cons] at hmem
    have hres := ih (stepBuilders bs tc) (stepBuilders_fst_nodup tc hn) k b hmem
    rw [lookupB_stepBuilders] at hres
    by_cases hk : k = tcKey tc
    · rw [if_pos hk] at hres
      subst hk
      cases hb : lookupB bs (tcKey tc) with
      | some b0 =>
        rw [hb] at hres
        simp only at hres
        rw [hres, mergeFields_args]
        simp [argsConcat, String.append_assoc]
      | none =>
        rw [hb] at hres
        simp only at hres
        rw [hres, mergeFields_args]
        simp [argsConcat, initBuilder]
    · rw [if_neg hk] at hres
      have hk' : ¬tcKey tc = k := fun h => hk h.symm
      have hcon : argsConcat k (tc :: rest) = argsConcat k rest := by
        simp [argsConcat, hk']
      cases hb : lookupB bs k with
      | some b0 => rw [hb] at hres; simpa [hcon] using hres
      | none => rw [hb] at hres; simpa [hcon] using hres

theorem idname_fold (deltas : List TCDelta) :
    ∀ (bs : List (BKey × Builder)), (bs.map Prod.fst).Nodup →
      ∀ (k : BKey) (b : Builder), (k, b) ∈ deltas.foldl stepBuilders bs →
      (∀ tc ∈ deltas, tcKey tc = k → tc.id = none ∧ fnNameFalsy tc) →
      (match lookupB bs k with
       | some b0 => b.id = b0.id ∧ b.name = b0.name
       | none => b.id = none ∧ b.name = none) := by
  induction deltas with
  | nil =>
    intro bs hn k b hmem _
    have := (mem_iff_lookupB hn).mp hmem
    rw [this]
    exact ⟨rfl, rfl⟩
  | cons tc rest ih =>
    intro bs hn k b hmem hfal
    simp only [List.foldl_cons] at hmem
    have hres := ih (stepBuilders bs tc) (stepBuilders_fst_nodup tc hn) k b hmem
      (fun tc' htc' => hfal tc' (List.mem_cons_of_mem _ htc'))
    rw [lookupB_stepBuilders] at hres
    by_cases hk : k = tcKey tc
    · rw [if_pos hk] at hres
      obtain ⟨hid, hname⟩ := hfal tc (List.mem_cons_self _ _) hk.symm
      subst hk
      cases hb : lookupB bs (tcKey tc) with
      | some b0 =>
        rw [hb] at hres
        simp only at hres
        rw [mergeFields_id _ _ hid, mergeFields_name _ _ hname] at hres
        simpa using hres
      | none =>
        rw [hb] at hres
        simp only at hres
        rw [mergeFields_id _ _ hid, mergeFields_name _ _ hname] at hres
        simpa [initBuilder, hid] using hres
    · rw [if_neg hk] at hres
      exact hres

/-- Claim C10: in the upstream client's tool-call reconstruction
(`_generate`/`_astream` in `core/llm.py`), sealing never drops a builder:
the final list has exactly one entry per distinct builder key in
first-appearance order; a delta fragment carrying neither `index` nor `id`
is keyed `("i", 0)`; every sealed entry's `function.arguments` is the
string concatenation of its fragments (the empty string if none arrived);
and a sealed entry's `id` and `function.name` remain null when no fragment
ever supplied them. -/
theorem C10_builder_reconstruction (deltas : List TCDelta) :
    ((buildToolCalls deltas).map Prod.fst = firstKeys deltas) ∧
    (∀ tc : TCDelta, tc.index = none → tc.id = none → tcKey tc = BKey.idx 0) ∧
    (∀ k b, (k, b) ∈ buildToolCalls deltas → b.arguments = argsConcat k deltas) ∧
    (∀ k b, (k, b) ∈ buildToolCalls deltas →
      (∀ tc ∈ deltas, tcKey tc = k → tc.id = none ∧ fnNameFalsy tc) →
      b.id = none ∧ b.name = none) := by
  refine ⟨buildToolCalls_fst deltas, ?_, ?_, ?_⟩
  · intro tc hidx hid
    simp [tcKey, hidx, hid]
  · intro k b hmem
    have := args_fold deltas [] (by simp) k b hmem
    simpa [lookupB] using this
  · intro k b hmem hfal
    have := idname_fold deltas [] (by simp) k b hmem hfal
    simpa [lookupB] using this

/-- Witness for C10 at a concrete two-fragment stream for index 0. -/
theorem C10_builder_reconstruction_witness :
    tcKey ⟨none, none, none, none⟩ = BKey.idx 0 ∧
    (BKey.idx 0, (⟨"function", none, none, "abcd"⟩ : Builder)) ∈
      buildToolCalls
        [⟨some 0, none, none, some ⟨none, some "ab"⟩⟩,
         ⟨some 0, none, none, some ⟨none, some "cd"⟩⟩] ∧
    (⟨"function", none, none, "abcd"⟩ : Builder).arguments =
      argsConcat (BKey.idx 0)
        [⟨some 0, none, none, some ⟨none, some "ab"⟩⟩,
         ⟨some 0, none, none, some ⟨none, some "cd"⟩⟩] ∧
    ((⟨"function", none, none, "abcd"⟩ : Builder).id = none ∧
      (⟨"function", none, none, "abcd"⟩ : Builder).name = none) :=
  ⟨(C10_builder_reconstruction []).2.1 ⟨none, none, none, none⟩ rfl rfl,
   by decide,
   (C10_builder_reconstruction
      [⟨some 0, none, none, some ⟨none, some "ab"⟩⟩,
       ⟨some 0, none, none, some ⟨none, some "cd"⟩⟩]).2.2.1
     (BKey.idx 0) ⟨"function", none, none, "abcd"⟩ (by decide),
   (C10_builder_reconstruction
      [⟨some 0, none, none, some ⟨none, some "ab"⟩⟩,
       ⟨some 0, none, none, some ⟨none, some "cd"⟩⟩]).2.2.2
     (BKey.idx 0) ⟨"function", none, none, "abcd"⟩ (by decide) (by decide)⟩

/-! ## Anthropic streaming remultiplexer (`anthropic_api.py`) -/

/-- One upstream chunk as seen by `anthropic_stream_generator`: the text
content delta and the optional `tool_calls` delta list found in
`additional_kwargs`. -/
structure StreamChunk where
  content : String
  toolCalls : Option (List TCDelta)
deriving DecidableEq, Repr

/-- Per-tool state (`tool_states[tc_index]`): accumulated id, name, argument
buffer, the block index assigned at creation, and whether the
`content_block_start` event has been emitted. -/
structure ToolState where
  id : Option String
  name : Option String
  argumentsBuffer : String
  blockIndex : Nat
  started : Bool
deriving DecidableEq, Repr

/-- The Anthropic SSE events emitted by the generator (payload fields that
the claims reason about). -/
inductive AEvent where
  | messageStart (messageId : String) (model : String)
  | blockStartText (index : Nat)
  | blockStartTool (index : Nat) (id : String) (name : String)
  | textDelta (index : Nat) (text : String)
  | inputJsonDelta (index : Nat) (partJson : String)
  | blockStop (index : Nat)
  | messageDelta (stopReason : String) (outputTokens : Nat)
  | messageStop
deriving DecidableEq, Repr

/-- Mutable state of the generator's streaming loop. -/
structure AGenState where
  contentBuffer : String
  blockIndex : Nat
  textBlockStarted : Bool
  textBlockHasContent : Bool
  toolStates : List (Nat × ToolState)
  stopReason : String
deriving DecidableEq, Repr

/-- Association-list lookup for the tool-states dict. -/
def lookupTS : List (Nat × ToolState) → Nat → Option ToolState
  | [], _ => none
  | (k, v) :: rest, key => if k = key then some v else lookupTS rest key

/-- `call_` → `toolu_` id-prefix rewriting for Anthropic tool-use ids. -/
def rewriteCallId (s : String) : String :=
  if s.startsWith "call_" then "toolu_" ++ s.drop 5 else s

/-- Process a single tool-call delta (`anthropic_api.py` lines 253-304):
initialise the state on first sight of the index (block index
`block_index + tc_index`), take id and name when provided and still falsy,
emit `content_block_start` once both id and name are truthy, and append /
emit an `input_json_delta` for a truthy argument fragment only when the
block has started. -/
def stepTc (st : AGenState) (tc : TCDelta) : AGenState × List AEvent :=
  let tcIndex := tc.index.getD 0
  let f := tc.function.getD ⟨none, none⟩
  let tcArgs := f.arguments.getD ""
  let fresh := (lookupTS st.toolStates tcIndex).isNone
  let s0 := (lookupTS st.toolStates tcIndex).getD
    ⟨tc.id, f.name, "", st.blockIndex + tcIndex, false⟩
  let s1 := if optTruthy tc.id && !(optTruthy s0.id) then { s0 with id := tc.id } else s0
  let s2 := if optTruthy f.name && !(optTruthy s1.name) then { s1 with name := f.name } else s1
  let startRes :=
    if !s2.started && optTruthy s2.id && optTruthy s2.name then
      ({ s2 with started := true },
       [AEvent.blockStartTool s2.blockIndex (rewriteCallId (s2.id.getD ""))
          (s2.name.getD "")])
    else (s2, ([] : List AEvent))
  let s3 := startRes.1
  let argRes :=
    if tcArgs ≠ "" && s3.started then
      ({ s3 with argumentsBuffer := s3.argumentsBuffer ++ tcArgs },
       [AEvent.inputJsonDelta s3.blockIndex tcArgs])
    else (s3, ([] : List AEvent))
  let s4 := argRes.1
  let newStates :=
    if fresh then st.toolStates ++ [(tcIndex, s4)]
    else st.toolStates.map (fun p => if p.1 = tcIndex then (p.1, s4) else p)
  ({ st with toolStates := newStates }, startRes.2 ++ argRes.2)

/-- Process a whole `tool_calls` delta list in order. -/
def stepToolList (st : AGenState) : List TCDelta → AGenState × List AEvent
  | [] => (st, [])
  | tc :: rest =>
    let r1 := stepTc st tc
    let r2 := stepToolList r1.1 rest
    (r2.1, r1.2 ++ r2.2)

/-- Process one upstream chunk: lazily open the text block and emit a text
delta for truthy content; for a truthy `tool_calls` list, first close a
started non-empty text block (incrementing `block_index`), then process the
deltas and set `stop_reason` to `"tool_use"`. -/
def stepChunk (st : AGenState) (ch : StreamChunk) : AGenState × List AEvent :=
  let textRes :=
    if ch.content ≠ "" then
      let startRes :=
        if st.textBlockStarted = false then
          ({ st with textBlockStarted := true }, [AEvent.blockStartText st.blockIndex])
        else (st, ([] : List AEvent))
      let stA := startRes.1
      ({ stA with
          contentBuffer := stA.contentBuffer ++ ch.content,
          textBlockHasContent := true },
       startRes.2 ++ [AEvent.textDelta stA.blockIndex ch.content])
    else (st, ([] : List AEvent))
  let st1 := textRes.1
  match ch.toolCalls with
  | some l =>
    if l.isEmpty then (st1, textRes.2)
    else
      let closeRes :=
        if st1.textBlockStarted && st1.textBlockHasContent then
          ({ st1 with
              blockIndex := st1.blockIndex + 1,
              textBlockStarted := false,
              textBlockHasContent := false },
           [AEvent.blockStop st1.blockIndex])
        else (st1, ([] : List AEvent))
      let toolRes := stepToolList closeRes.1 l
      ({ toolRes.1 with stopReason := "tool_use" },
       textRes.2 ++ closeRes.2 ++ toolRes.2)
  | none => (st1, textRes.2)

/-- Insert a keyed pair into a list sorted by key. -/
def insertSorted (p : Nat × ToolState) :
    List (Nat × ToolState) → List (Nat × ToolState)
  | [] => [p]
  | q :: rest => if p.1 ≤ q.1 then p :: q :: rest else q :: insertSorted p rest

/-- `sorted(tool_states.items())`. -/
def sortNatPairs : List (Nat × ToolState) → List (Nat × ToolState)
  | [] => []
  | p :: rest => insertSorted p (sortNatPairs rest)

/-- `len(s.split())`: number of whitespace-separated words. -/
def pyWordCount (s : String) : Nat :=
  ((s.split fun c => c == ' ' || c == '\n' || c == '\t' || c == '\r').filter
    (fun w => w ≠ "")).length

/-- The initial state of the generator loop. -/
def aGenInit : AGenState := ⟨"", 0, false, false, [], "end_turn"⟩

/-- The generator's streaming loop over all upstream chunks. -/
def anthropicGenRun (chunks : List StreamChunk) : AGenState × List AEvent :=
  chunks.foldl
    (fun acc ch =>
      let r := stepChunk acc.1 ch
      (r.1, acc.2 ++ r.2))
    (aGenInit, [])

/-- The events emitted after the upstream stream ends (`anthropic_api.py`
lines 309-330): close a started text block, close every started tool block
in key order, then `message_delta` with the usage estimate and
`message_stop`. -/
def anthropicFinalize (st : AGenState) : List AEvent :=
  let closeText :=
    if st.textBlockStarted then [AEvent.blockStop st.blockIndex] else []
  let closeTools :=
    (sortNatPairs st.toolStates).filterMap
      (fun p => if p.2.started then some (AEvent.blockStop p.2.blockIndex) else none)
  let outputTokens :=
    pyWordCount st.contentBuffer +
      ((st.toolStates.map (fun p => p.2.argumentsBuffer.length)).sum) / 4
  closeText ++ closeTools ++
    [AEvent.messageDelta st.stopReason outputTokens, AEvent.messageStop]

/-- `anthropic_stream_generator`: `message_start`, the streamed events, and
the finalisation events. -/
def anthropic_stream_generator (messageId model : String)
    (chunks : List StreamChunk) : List AEvent :=
  AEvent.messageStart messageId model ::
    ((anthropicGenRun chunks).2 ++ anthropicFinalize (anthropicGenRun chunks).1)

/-- The tool-call deltas a chunk contributes to the generator's tool loop
(empty when `tool_calls` is absent or an empty list). -/
def toolListOf (ch : StreamChunk) : List TCDelta :=
  match ch.toolCalls with
  | some l => if l.isEmpty then [] else l
  | none => []

/-- All tool-call deltas of a stream, in processing order. -/
def allTcs (chunks : List StreamChunk) : List TCDelta :=
  (chunks.map toolListOf).flatten

/-- The tool index of a delta (`tc.get("index", 0)`). -/
def tcIdx (tc : TCDelta) : Nat := tc.index.getD 0

/-- Concatenation of the argument fragments of the deltas with a given tool
index, in arrival order. -/
def argsConcatIdx (i : Nat) : List TCDelta → String
  | [] => ""
  | tc :: rest =>
    if tcIdx tc = i then fragArgs tc ++ argsConcatIdx i rest
    else argsConcatIdx i rest

theorem argsConcatIdx_append (i : Nat) (l1 l2 : List TCDelta) :
    argsConcatIdx i (l1 ++ l2) = argsConcatIdx i l1 ++ argsConcatIdx i l2 := by
  induction l1 with
  | nil => simp [argsConcatIdx]
  | cons tc rest ih =>
    by_cases h : tcIdx tc = i <;>
      simp [argsConcatIdx, h, ih, String.append_assoc]

theorem argsConcatIdx_eq_nil {i : Nat} {l : List TCDelta}
    (h : ∀ g ∈ l, tcIdx g ≠ i) : argsConcatIdx i l = "" := by
  induction l with
  | nil => rfl
  | cons tc rest ih =>
    rw [argsConcatIdx, if_neg (h tc (List.mem_cons_self _ _))]
    exact ih fun g hg => h g (List.mem_cons_of_mem _ hg)

/-- Every tool index's first delta fragment carries a truthy id and a truthy
function name (the normal upstream pattern; OpenAI sends id and name in the
opening fragment of each tool call). -/
def FirstFragComplete (l : List TCDelta) : Prop :=
  ∀ pre f post, l = pre ++ f :: post →
    (∀ g ∈ pre, tcIdx g ≠ tcIdx f) →
    optTruthy f.id = true ∧
      optTruthy ((f.function.getD ⟨none, none⟩).name) = true

theorem lookupTS_append_last {ts : List (Nat × ToolState)} {key k : Nat}
    {v : ToolState} :
    lookupTS (ts ++ [(key, v)]) k =
      match lookupTS ts k with
      | some w => some w
      | none => if key = k then some v else none := by
  induction ts with
  | nil => simp [lookupTS]
  | cons p rest ih =>
    rcases p with ⟨k0, v0⟩
    by_cases hk : k0 = k
    · subst hk
      simp [lookupTS]
    · simp [lookupTS, hk, ih]

theorem lookupTS_map_update {ts : List (Nat × ToolState)} {key k : Nat}
    {v : ToolState} :
    lookupTS (ts.map fun p => if p.1 = key then (p.1, v) else p) k =
      (lookupTS ts k).map (fun w => if k = key then v else w) := by
  induction ts with
  | nil => simp [lookupTS]
  | cons p rest ih =>
    rcases p with ⟨k0, v0⟩
    simp only [List.map_cons]
    by_cases hk0 : k0 = key
    · subst hk0
      rw [if_pos rfl]
      by_cases hk : k0 = k
      · subst hk
        simp [lookupTS]
      · simp [lookupTS, hk, ih]
    · rw [if_neg hk0]
      by_cases hk : k0 = k
      · subst hk
        simp [lookupTS, hk0]
      · simp [lookupTS, hk, ih]

theorem optTruthy_iff {o : Option String} :
    optTruthy o = true ↔ ∃ s, o = some s ∧ s ≠ "" := by
  cases o with
  | none => simp [optTruthy]
  | some s => simp [optTruthy]

/-- Evaluation of `stepTc` on a delta whose tool state already exists and is
already started with truthy id and name: only the argument fragment is
consumed. -/
theorem stepTc_existing (st : AGenState) (f : TCDelta) (s0 : ToolState)
    (h : lookupTS st.toolStates (tcIdx f) = some s0)
    (hstart : s0.started = true) (hid : optTruthy s0.id = true)
    (hnm : optTruthy s0.name = true) :
    stepTc st f =
      ({ st with
          toolStates := st.toolStates.map fun p =>
            if p.1 = tcIdx f then
              (p.1,
                if fragArgs f = "" then s0
                else { s0 with argumentsBuffer := s0.argumentsBuffer ++ fragArgs f })
            else p },
       if fragArgs f = "" then []
       else [AEvent.inputJsonDelta s0.blockIndex (fragArgs f)]) := by
  simp only [tcIdx] at h
  simp only [tcIdx, fragArgs] at *
  simp only [stepTc, h, Option.isNone_some, Option.getD_some, hid, hstart, hnm]
  by_cases ha : (f.function.getD ⟨none, none⟩).arguments.getD "" = ""
  · simp [ha, hstart, hid, hnm]
  · simp [ha, hstart, hid, hnm]

/-- Evaluation of `stepTc` on the first delta of a tool index when it
carries a truthy id and name: the state is created at block index
`block_index + tc_index`, the `content_block_start` is emitted immediately,
and the argument fragment (if any) is consumed. -/
theorem stepTc_fresh (st : AGenState) (f : TCDelta)
    (h : lookupTS st.toolStates (tcIdx f) = none)
    (hid : optTruthy f.id = true)
    (hnm : optTruthy ((f.function.getD ⟨none, none⟩).name) = true) :
    stepTc st f =
      ({ st with toolStates := st.toolStates ++
          [(tcIdx f,
            ⟨f.id, (f.function.getD ⟨none, none⟩).name, fragArgs f,
             st.blockIndex + tcIdx f, true⟩)] },
       AEvent.blockStartTool (st.blockIndex + tcIdx f)
           (rewriteCallId (f.id.getD ""))
           (((f.function.getD ⟨none, none⟩).name).getD "") ::
         (if fragArgs f = "" then []
          else [AEvent.inputJsonDelta (st.blockIndex + tcIdx f) (fragArgs f)])) := by
  simp only [tcIdx] at h
  simp only [tcIdx, fragArgs] at *
  simp only [stepTc, h, Option.isNone_none, Option.getD_none, hid, hnm]
  by_cases ha : (f.function.getD ⟨none, none⟩).arguments.getD "" = ""
  · simp [ha, hid, hnm]
  · simp [ha, hid, hnm]

/-- Invariant of the generator's tool handling after consuming the deltas in
`done` and emitting the events in `evs`: every recorded tool state is
started with its buffer holding exactly the fragments of its index, a truthy
id and name, and an emitted `content_block_start`; and indices without a
state have seen no fragment at all. -/
def AInv (done : List TCDelta) (st : AGenState) (evs : List AEvent) : Prop :=
  (∀ i stt, lookupTS st.toolStates i = some stt →
    stt.started = true ∧
    stt.argumentsBuffer = argsConcatIdx i done ∧
    ∃ idv nmv, stt.id = some idv ∧ idv ≠ "" ∧ stt.name = some nmv ∧ nmv ≠ "" ∧
      AEvent.blockStartTool stt.blockIndex (rewriteCallId idv) nmv ∈ evs) ∧
  (∀ i, lookupTS st.toolStates i = none → ∀ g ∈ done, tcIdx g ≠ i)

theorem AInv_mono {done : List TCDelta} {st : AGenState} {evs : List AEvent}
    (h : AInv done st evs) (st' : AGenState)
    (hts : st'.toolStates = st.toolStates) (extra : List AEvent) :
    AInv done st' (evs ++ extra) := by
  constructor
  · intro i stt hl
    rw [hts] at hl
    obtain ⟨h1, h2, idv, nmv, h3, h4, h5, h6, h7⟩ := h.1 i stt hl
    exact ⟨h1, h2, idv, nmv, h3, h4, h5, h6, List.mem_append_left _ h7⟩
  · intro i hl
    rw [hts] at hl
    exact h.2 i hl

theorem stepTc_inv (allT : List TCDelta) (hff : FirstFragComplete allT)
    (done todo : List TCDelta) (f : TCDelta)
    (hsplit : allT = done ++ f :: todo)
    (st : AGenState) (evs : List AEvent)
    (hinv : AInv done st evs) :
    AInv (done ++ [f]) (stepTc st f).1 (evs ++ (stepTc st f).2) := by
  cases hfound : lookupTS st.toolStates (tcIdx f) with
  | some s0 =>
    obtain ⟨hstart, hbuf, idv, nmv, hia, hib, hna, hnb, hev⟩ :=
      hinv.1 (tcIdx f) s0 hfound
    have hid : optTruthy s0.id = true := optTruthy_iff.mpr ⟨idv, hia, hib⟩
    have hnm : optTruthy s0.name = true := optTruthy_iff.mpr ⟨nmv, hna, hnb⟩
    rw [stepTc_existing st f s0 hfound hstart hid hnm]
    constructor
    · intro i stt hl
      simp only [] at hl
      rw [lookupTS_map_update] at hl
      cases hcur : lookupTS st.toolStates i with
      | none => rw [hcur] at hl; simp at hl
      | some w =>
        rw [hcur] at hl
        simp only [Option.map_some'] at hl
        obtain ⟨hw1, hw2, idw, nmw, hwa, hwb, hwc, hwd, hwe⟩ := hinv.1 i w hcur
        by_cases hik : i = tcIdx f
        · subst hik
          have hws : w = s0 := by
            rw [hfound] at hcur
            exact (Option.some.inj hcur).symm
          subst hws
          rw [if_pos rfl] at hl
          by_cases ha : fragArgs f = ""
          · rw [if_pos ha] at hl
            obtain rfl := Option.some.inj hl
            refine ⟨hw1, ?_, idw, nmw, hwa, hwb, hwc, hwd,
              List.mem_append_left _ hwe⟩
            rw [argsConcatIdx_append, hw2]
            simp [argsConcatIdx, ha]
          · rw [if_neg ha] at hl
            obtain rfl := Option.some.inj hl
            refine ⟨hw1, ?_, idw, nmw, hwa, hwb, hwc, hwd,
              List.mem_append_left _ hwe⟩
            simp only []
            rw [argsConcatIdx_append, hw2]
            simp [argsConcatIdx]
        · rw [if_neg hik] at hl
          obtain rfl := Option.some.inj hl
          refine ⟨hw1, ?_, idw, nmw, hwa, hwb, hwc, hwd,
            List.mem_append_left _ hwe⟩
          rw [argsConcatIdx_append, hw2]
          have : tcIdx f ≠ i := fun hcontra => hik hcontra.symm
          simp [argsConcatIdx, this]
    · intro i hl
      simp only [] at hl
      rw [lookupTS_map_update] at hl
      cases hcur : lookupTS st.toolStates i with
      | some w => rw [hcur] at hl; simp at hl
      | none =>
        intro g hg
        rcases List.mem_append.mp hg with hgd | hgf
        · exact hinv.2 i hcur g hgd
        · obtain rfl := List.mem_singleton.mp hgf
          intro hcontra
          rw [hcontra] at hfound
          rw [hfound] at hcur
          exact Option.noConfusion hcur
  | none =>
    have hdone : ∀ g ∈ done, tcIdx g ≠ tcIdx f := hinv.2 (tcIdx f) hfound
    obtain ⟨hid, hnm⟩ := hff done f todo hsplit hdone
    obtain ⟨idv, hia, hib⟩ := optTruthy_iff.mp hid
    obtain ⟨nmv, hna, hnb⟩ := optTruthy_iff.mp hnm
    rw [stepTc_fresh st f hfound hid hnm]
    constructor
    · intro i stt hl
      simp only [] at hl
      rw [lookupTS_append_last] at hl
      cases hcur : lookupTS st.toolStates i with
      | some w =>
        rw [hcur] at hl
        simp only [] at hl
        obtain rfl := Option.some.inj hl
        obtain ⟨hw1, hw2, idw, nmw, hwa, hwb, hwc, hwd, hwe⟩ := hinv.1 i w hcur
        have hik : tcIdx f ≠ i := by
          intro hcontra
          rw [hcontra] at hfound
          rw [hfound] at hcur
          exact Option.noConfusion hcur
        refine ⟨hw1, ?_, idw, nmw, hwa, hwb, hwc, hwd,
          List.mem_append_left _ hwe⟩
        rw [argsConcatIdx_append, hw2]
        simp [argsConcatIdx, hik]
      | none =>
        rw [hcur] at hl
        simp only [] at hl
        by_cases hik : tcIdx f = i
        · rw [if_pos hik] at hl
          obtain rfl := Option.some.inj hl
          subst hik
          refine ⟨rfl, ?_, idv, nmv, hia, hib, hna, hnb, ?_⟩
          · simp only []
            rw [argsConcatIdx_append,
              argsConcatIdx_eq_nil (hinv.2 (tcIdx f) hfound)]
            simp [argsConcatIdx]
          · simp only []
            refine List.mem_append_right _ ?_
            rw [hia, hna]
            simp only [Option.getD_some]
            exact List.mem_cons_self _ _
        · rw [if_neg hik] at hl
          exact Option.noConfusion hl
    · intro i hl
      simp only [] at hl
      rw [lookupTS_append_last] at hl
      cases hcur : lookupTS st.toolStates i with
      | some w => rw [hcur] at hl; simp at hl
      | none =>
        rw [hcur] at hl
        simp only [] at hl
        intro g hg
        rcases List.mem_append.mp hg with hgd | hgf
        · exact hinv.2 i hcur g hgd
        · obtain rfl := List.mem_singleton.mp hgf
          intro hcontra
          rw [hcontra] at hl
          simp at hl

theorem stepToolList_inv (allT : List TCDelta) (hff : FirstFragComplete allT) :
    ∀ (l done todo : List TCDelta) (st : AGenState) (evs : List AEvent),
      allT = done ++ (l ++ todo) →
      AInv done st evs →
      AInv (done ++ l) (stepToolList st l).1 (evs ++ (stepToolList st l).2) := by
  intro l
  induction l with
  | nil =>
    intro done todo st evs hsplit hinv
    simpa [stepToolList] using AInv_mono hinv _ rfl []
  | cons tc rest ih =>
    intro done todo st evs hsplit hinv
    have h1 := stepTc_inv allT hff done (rest ++ todo) tc (by simpa using hsplit)
      st evs hinv
    have h2 := ih (done ++ [tc]) todo (stepTc st tc).1 (evs ++ (stepTc st tc).2)
      (by simpa using hsplit) h1
    simpa [stepToolList, List.append_assoc] using h2

theorem stepChunk_inv (allT : List TCDelta) (hff : FirstFragComplete allT)
    (ch : StreamChunk) (done todo : List TCDelta) (st : AGenState)
    (evs : List AEvent)
    (hsplit : allT = done ++ (toolListOf ch ++ todo))
    (hinv : AInv done st evs) :
    AInv (done ++ toolListOf ch) (stepChunk st ch).1
      (evs ++ (stepChunk st ch).2) := by
  rcases ch with ⟨content, tcs⟩
  rcases tcs with _ | l
  · -- no tool_calls key at all
    simp only [toolListOf] at hsplit ⊢
    by_cases hc : content = ""
    · simpa [stepChunk, hc] using AInv_mono hinv st rfl []
    · by_cases hts : st.textBlockStarted
      · simpa [stepChunk, hc, hts] using
          AInv_mono hinv
            ({ st with
                contentBuffer := st.contentBuffer ++ content,
                textBlockHasContent := true }) rfl
            [AEvent.textDelta st.blockIndex content]
      · simpa [stepChunk, hc, hts] using
          AInv_mono hinv
            ({ st with
                textBlockStarted := true,
                contentBuffer := st.contentBuffer ++ content,
                textBlockHasContent := true }) rfl
            [AEvent.blockStartText st.blockIndex,
             AEvent.textDelta st.blockIndex content]
  · by_cases hemp : l.isEmpty
    · -- empty tool_calls list: falsy, not processed
      simp only [toolListOf, hemp, if_pos] at hsplit ⊢
      by_cases hc : content = ""
      · simpa [stepChunk, hc, hemp] using AInv_mono hinv st rfl []
      · by_cases hts : st.textBlockStarted
        · simpa [stepChunk, hc, hts, hemp] using
            AInv_mono hinv
              ({ st with
                contentBuffer := st.contentBuffer ++ content,
                  textBlockHasContent := true }) rfl
              [AEvent.textDelta st.blockIndex content]
        · simpa [stepChunk, hc, hts, hemp] using
            AInv_mono hinv
              ({ st with
                textBlockStarted := true,
                  contentBuffer := st.contentBuffer ++ content,
                  textBlockHasContent := true }) rfl
              [AEvent.blockStartText st.blockIndex,
               AEvent.textDelta st.blockIndex content]
    · -- a truthy tool_calls list
      have htl : toolListOf ⟨content, some l⟩ = l := by
        simp [toolListOf, hemp]
      rw [htl] at hsplit ⊢
      by_cases hc : content = ""
      · by_cases hcl : (st.textBlockStarted && st.textBlockHasContent) = true
        · -- text block closed before the tool loop
          have hmid := AInv_mono hinv
            ({ st with
                blockIndex := st.blockIndex + 1,
                textBlockStarted := false, textBlockHasContent := false }) rfl
            [AEvent.blockStop st.blockIndex]
          have h2 := stepToolList_inv allT hff l done todo _ _ hsplit hmid
          have h3 := AInv_mono h2
            ({ (stepToolList ({ st with
                blockIndex := st.blockIndex + 1,
                textBlockStarted := false, textBlockHasContent := false }) l).1
                with stopReason := "tool_use" }) rfl []
          simpa [stepChunk, hc, hemp, hcl, List.append_assoc] using h3
        · have hmid := AInv_mono hinv st rfl ([] : List AEvent)
          have h2 := stepToolList_inv allT hff l done todo _ _ hsplit hmid
          have h3 := AInv_mono h2
            ({ (stepToolList st l).1 with stopReason := "tool_use" }) rfl []
          simpa [stepChunk, hc, hemp, hcl, List.append_assoc] using h3
      · by_cases hts : st.textBlockStarted
        · have hmid := AInv_mono hinv
            ({ st with
                contentBuffer := st.contentBuffer ++ content,
                textBlockHasContent := false, blockIndex := st.blockIndex + 1,
                textBlockStarted := false }) rfl
            [AEvent.textDelta st.blockIndex content,
             AEvent.blockStop st.blockIndex]
          have h2 := stepToolList_inv allT hff l done todo _ _ hsplit hmid
          have h3 := AInv_mono h2
            ({ (stepToolList ({ st with
                contentBuffer := st.contentBuffer ++ content,
                textBlockHasContent := false, blockIndex := st.blockIndex + 1,
                textBlockStarted := false }) l).1
                with stopReason := "tool_use" }) rfl []
          simpa [stepChunk, hc, hts, hemp, List.append_assoc] using h3
        · have hmid := AInv_mono hinv
            ({ st with
                textBlockStarted := false,
                contentBuffer := st.contentBuffer ++ content,
                textBlockHasContent := false,
                blockIndex := st.blockIndex + 1 }) rfl
            [AEvent.blockStartText st.blockIndex,
             AEvent.textDelta st.blockIndex content,
             AEvent.blockStop st.blockIndex]
          have h2 := stepToolList_inv allT hff l done todo _ _ hsplit hmid
          have h3 := AInv_mono h2
            ({ (stepToolList ({ st with
                textBlockStarted := false,
                contentBuffer := st.contentBuffer ++ content,
                textBlockHasContent := false,
                blockIndex := st.blockIndex + 1 }) l).1
                with stopReason := "tool_use" }) rfl []
          simpa [stepChunk, hc, hts, hemp, List.append_assoc] using h3

theorem allTcs_cons (ch : StreamChunk) (cs : List StreamChunk) :
    allTcs (ch :: cs) = toolListOf ch ++ allTcs cs := by
  simp [allTcs]

theorem anthropicGenRun_inv_aux (allT : List TCDelta)
    (hff : FirstFragComplete allT) :
    ∀ (cs : List StreamChunk) (done : List TCDelta) (st : AGenState)
      (evs : List AEvent),
      allT = done ++ allTcs cs →
      AInv done st evs →
      AInv (done ++ allTcs cs)
        (cs.foldl (fun acc ch =>
          let r := stepChunk acc.1 ch
          (r.1, acc.2 ++ r.2)) (st, evs)).1
        (cs.foldl (fun acc ch =>
          let r := stepChunk acc.1 ch
          (r.1, acc.2 ++ r.2)) (st, evs)).2 := by
  intro cs
  induction cs with
  | nil =>
    intro done st evs hsplit hinv
    simpa [allTcs] using hinv
  | cons ch cs ih =>
    intro done st evs hsplit hinv
    have hsplit' : allT = done ++ (toolListOf ch ++ allTcs cs) := by
      simpa [allTcs_cons, List.append_assoc] using hsplit
    have h1 := stepChunk_inv allT hff ch done (allTcs cs) st evs hsplit' hinv
    have h2 := ih (done ++ toolListOf ch) (stepChunk st ch).1
      (evs ++ (stepChunk st ch).2)
      (by simpa [allTcs_cons, List.append_assoc] using hsplit) h1
    simpa [allTcs_cons, List.append_assoc] using h2

theorem anthropicGenRun_inv (chunks : List StreamChunk)
    (hff : FirstFragComplete (allTcs chunks)) :
    AInv (allTcs chunks) (anthropicGenRun chunks).1 (anthropicGenRun chunks).2 := by
  have h0 : AInv [] aGenInit [] := by
    constructor
    · intro i stt hl
      simp [aGenInit, lookupTS] at hl
    · intro i hl g hg
      simp at hg
  have h := anthropicGenRun_inv_aux (allTcs chunks) hff chunks [] aGenInit []
    (by simp) h0
  simpa [anthropicGenRun] using h

/-- Claim C7 (amended): in the Anthropic streaming remultiplexer, provided
each tool call's first delta fragment carries the call's id and name (the
normal upstream pattern), a tool-use `content_block_start` is emitted for
every tool call, and each tool state's accumulated arguments equal the
concatenation of all of that tool's argument fragments: no fragment is
lost.  (Without that proviso, fragments arriving before both id and name
have been observed are silently discarded — they are neither buffered nor
replayed; see the counterexample.) -/
theorem C7_tool_blocks (messageId model : String) (chunks : List StreamChunk)
    (hff : FirstFragComplete (allTcs chunks)) :
    (∀ f ∈ allTcs chunks,
      (lookupTS (anthropicGenRun chunks).1.toolStates (tcIdx f)).isSome = true) ∧
    (∀ i stt, lookupTS (anthropicGenRun chunks).1.toolStates i = some stt →
      stt.started = true ∧
      stt.argumentsBuffer = argsConcatIdx i (allTcs chunks) ∧
      ∃ idv nmv, stt.id = some idv ∧ stt.name = some nmv ∧
        AEvent.blockStartTool stt.blockIndex (rewriteCallId idv) nmv ∈
          anthropic_stream_generator messageId model chunks) := by
  have hinv := anthropicGenRun_inv chunks hff
  constructor
  · intro f hf
    cases hl : lookupTS (anthropicGenRun chunks).1.toolStates (tcIdx f) with
    | some w => rfl
    | none => exact absurd rfl (hinv.2 (tcIdx f) hl f hf)
  · intro i stt hl
    obtain ⟨h1, h2, idv, nmv, h3, -, h5, -, h7⟩ := hinv.1 i stt hl
    refine ⟨h1, h2, idv, nmv, h3, h5, ?_⟩
    unfold anthropic_stream_generator
    exact List.mem_cons_of_mem _ (List.mem_append_left _ h7)

/-- Witness for C7 at the spec's streaming-reassembly scenario: the first
fragment carries id and name, the second only arguments; the block opens on
the first fragment and no fragment is lost. -/
theorem C7_tool_blocks_witness :
    FirstFragComplete (allTcs
      [⟨"", some [⟨some 0, some "call_X", none, some ⟨some "f", none⟩⟩]⟩,
       ⟨"", some [⟨some 0, none, none, some ⟨none, some "ARGS"⟩⟩]⟩]) ∧
    ((∀ f ∈ allTcs
        [⟨"", some [⟨some 0, some "call_X", none, some ⟨some "f", none⟩⟩]⟩,
         ⟨"", some [⟨some 0, none, none, some ⟨none, some "ARGS"⟩⟩]⟩],
      (lookupTS (anthropicGenRun
          [⟨"", some [⟨some 0, some "call_X", none, some ⟨some "f", none⟩⟩]⟩,
           ⟨"", some [⟨some 0, none, none, some ⟨none, some "ARGS"⟩⟩]⟩]).1.toolStates
        (tcIdx f)).isSome = true) ∧
     (∀ i stt, lookupTS (anthropicGenRun
          [⟨"", some [⟨some 0, some "call_X", none, some ⟨some "f", none⟩⟩]⟩,
           ⟨"", some [⟨some 0, none, none, some ⟨none, some "ARGS"⟩⟩]⟩]).1.toolStates
            i = some stt →
      stt.started = true ∧
      stt.argumentsBuffer = argsConcatIdx i (allTcs
        [⟨"", some [⟨some 0, some "call_X", none, some ⟨some "f", none⟩⟩]⟩,
         ⟨"", some [⟨some 0, none, none, some ⟨none, some "ARGS"⟩⟩]⟩]) ∧
      ∃ idv nmv, stt.id = some idv ∧ stt.name = some nmv ∧
        AEvent.blockStartTool stt.blockIndex (rewriteCallId idv) nmv ∈
          anthropic_stream_generator "msg_w" "oca-model"
            [⟨"", some [⟨some 0, some "call_X", none, some ⟨some "f", none⟩⟩]⟩,
             ⟨"", some [⟨some 0, none, none, some ⟨none, some "ARGS"⟩⟩]⟩])) := by
  have hff : FirstFragComplete (allTcs
      [⟨"", some [⟨some 0, some "call_X", none, some ⟨some "f", none⟩⟩]⟩,
       ⟨"", some [⟨some 0, none, none, some ⟨none, some "ARGS"⟩⟩]⟩]) := by
    intro pre f post h hpre
    rcases pre with - | ⟨x, pre⟩
    · simp only [List.nil_append] at h
      obtain ⟨hf, -⟩ := List.cons.inj h
      rw [← hf]
      exact ⟨by decide, by decide⟩
    · rcases pre with - | ⟨y, pre⟩
      · simp only [List.cons_append, List.nil_append] at h
        obtain ⟨hx, h2⟩ := List.cons.inj h
        obtain ⟨hf, -⟩ := List.cons.inj h2
        have := hpre x (List.mem_singleton.mpr rfl)
        rw [← hx, ← hf] at this
        exact absurd (by decide) this
      · simp only [List.cons_append] at h
        obtain ⟨-, h2⟩ := List.cons.inj h
        obtain ⟨-, h3⟩ := List.cons.inj h2
        exact absurd h3 (by simp)
  exact ⟨hff, C7_tool_blocks "msg_w" "oca-model" _ hff⟩

/-- Counterexample to C7 as stated: an argument fragment that arrives before
the tool's id and name are known is dropped.  The first delta carries only
arguments `"AAA"`, the second carries id, name and `"BBB"`; the final
accumulated arguments are `"BBB"`, not the concatenation `"AAABBB"` the
claim requires. -/
theorem C7_counterexample :
    lookupTS (anthropicGenRun
        [⟨"", some [⟨some 0, none, none, some ⟨none, some "AAA"⟩⟩]⟩,
         ⟨"", some [⟨some 0, some "call_X", none, some ⟨some "f", some "BBB"⟩⟩]⟩]).1.toolStates
        0 =
      some ⟨some "call_X", some "f", "BBB", 0, true⟩ ∧
    argsConcatIdx 0 (allTcs
        [⟨"", some [⟨some 0, none, none, some ⟨none, some "AAA"⟩⟩]⟩,
         ⟨"", some [⟨some 0, some "call_X", none, some ⟨some "f", some "BBB"⟩⟩]⟩]) =
      "AAABBB" ∧
    ("BBB" : String) ≠ "AAABBB" := by
  refine ⟨by decide, by decide, by decide⟩

/-! ## Responses input converter (`converters/responses_converter.py`,
`response_input_to_langchain_messages`, lines 44-308)

Input items are dicts (`message`, `function_call`, `function_call_output`,
anything else ignored); message content is either a string or a list of
content blocks.  `json.loads` inside the function-name inference is
abstracted by a key-extraction oracle `pk : String → Option (List String)`
(the keys of the parsed object when the arguments parse to a dict), and
`uuid.uuid4()` by a stream `fresh : Nat → String` consumed once per
`function_call` item whose `call_id` and `id` are both falsy. -/

/-- A content block (`{"type": ..., "text": ...}`). -/
structure RBlock where
  type : String
  text : String
deriving DecidableEq, Repr

/-- Message-item content: a plain string or a list of content blocks. -/
inductive RContent where
  | str (s : String)
  | blocks (bs : List RBlock)
deriving DecidableEq, Repr

/-- A Responses-dialect input item. -/
inductive InItem where
  | message (role : String) (content : RContent)
  | functionCall (callId : Option String) (idField : Option String)
      (name : String) (arguments : String)
  | functionCallOutput (callId : String) (output : String)
  | other
deriving DecidableEq, Repr

/-- Texts gathered from the content blocks (lines 122-129): blocks of type
`input_text`, `output_text` or `text` contribute their `text`. -/
def blockTexts (bs : List RBlock) : List String :=
  bs.filterMap fun b =>
    if b.type = "input_text" ∨ b.type = "output_text" ∨ b.type = "text" then
      some b.text
    else none

/-- `combined_text = "\n".join(text_parts)` (line 130). -/
def combinedText (bs : List RBlock) : String :=
  String.intercalate "\n" (blockTexts bs)

/-- Conversion of one `message` item (lines 107-139): string content is
appended by role (assistant even when empty); block content is joined and an
assistant message with empty joined text is skipped unconditionally
(lines 131-133). -/
def messageMsgs (role : String) : RContent → List Msg
  | .str c =>
    if role = "user" then [Msg.user c]
    else if role = "assistant" then [Msg.assistant c []]
    else if role = "system" ∨ role = "developer" then [Msg.system c]
    else []
  | .blocks bs =>
    let t := combinedText bs
    if role = "assistant" ∧ t = "" then []
    else if role = "user" then [Msg.user t]
    else if role = "assistant" then [Msg.assistant t []]
    else if role = "system" ∨ role = "developer" then [Msg.system t]
    else []

/-- The function-name inference table (lines 148-170): when the arguments
parse to an object, the first matching known key pattern names the tool. -/
def inferName (pk : String → Option (List String)) (arguments : String) :
    String :=
  match pk arguments with
  | none => ""
  | some ks =>
    if ks.contains "cmd" then "exec_command"
    else if ks.contains "session_id" ∧ ks.contains "chars" then "write_stdin"
    else if ks.contains "plan" then "update_plan"
    else if ks.contains "questions" then "request_user_input"
    else if ks.contains "path" then "view_image"
    else ""

/-- Python `s or t` on optional strings (empty and absent are falsy). -/
def pyOr (a : Option String) (b : String) : String :=
  match a with
  | some s => if s = "" then b else s
  | none => b

/-- Whether resolving `item.get("call_id") or item.get("id") or uuid` takes
the `uuid` arm, consuming a fresh id. -/
def fcConsumesFresh (callId idField : Option String) : Bool :=
  !(optTruthy callId) && !(optTruthy idField)

/-- Conversion of one `function_call` item (lines 141-192) given the fresh
id it may consume: blank names go through inference, still-blank names make
the item be skipped, otherwise a content-less `AIMessage` with exactly one
tool call is appended. -/
def functionCallMsgs (pk : String → Option (List String)) (freshV : String)
    (callId idField : Option String) (name arguments : String) : List Msg :=
  let cid := pyOr callId (pyOr idField freshV)
  let name1 := if name.trim = "" then inferName pk arguments else name
  if name1.trim = "" then []
  else [Msg.assistant "" [⟨cid, name1, arguments⟩]]

/-- The item loop (lines 102-207), threading the count of consumed fresh
ids. -/
def itemsToMsgs (pk : String → Option (List String)) (fresh : Nat → String) :
    List InItem → Nat → List Msg
  | [], _ => []
  | .message role c :: rest, n => messageMsgs role c ++ itemsToMsgs pk fresh rest n
  | .functionCall callId idField name arguments :: rest, n =>
    functionCallMsgs pk (fresh n) callId idField name arguments ++
      itemsToMsgs pk fresh rest
        (if fcConsumesFresh callId idField then n + 1 else n)
  | .functionCallOutput callId output :: rest, n =>
    Msg.tool callId output :: itemsToMsgs pk fresh rest n
  | .other :: rest, n => itemsToMsgs pk fresh rest n

/-- `response_input_to_langchain_messages` (lines 44-308): optional truthy
instructions become a leading system message; a string input becomes a
single user message; a list input goes through the item loop. -/
def response_input_to_langchain_messages (pk : String → Option (List String))
    (fresh : Nat → String) (instructions : Option String)
    (input_data : Option (String ⊕ List InItem)) : List Msg :=
  (if optTruthy instructions then [Msg.system (instructions.getD "")] else []) ++
  match input_data with
  | none => []
  | some (.inl s) => [Msg.user s]
  | some (.inr items) => itemsToMsgs pk fresh items 0

/-- Whether an input item is a `function_call` item. -/
def isFunctionCallItem : InItem → Bool
  | .functionCall _ _ _ _ => true
  | _ => false

theorem itemsToMsgs_drop_empty_assistant (pk : String → Option (List String))
    (fresh : Nat → String) (bs : List RBlock) (h : combinedText bs = "") :
    ∀ (pre suf : List InItem) (n : Nat),
      itemsToMsgs pk fresh
        (pre ++ InItem.message "assistant" (RContent.blocks bs) :: suf) n =
      itemsToMsgs pk fresh (pre ++ suf) n := by
  intro pre
  induction pre with
  | nil =>
    intro suf n
    simp [itemsToMsgs, messageMsgs, h]
  | cons it pre ih =>
    intro suf n
    cases it with
    | message role c => simp [itemsToMsgs, ih]
    | functionCall a b c d => simp [itemsToMsgs, ih]
    | functionCallOutput a b => simp [itemsToMsgs, ih]
    | other => simp [itemsToMsgs, ih]

/-- Claim C8 (amended): an assistant `message` item whose content-block list
joins to the empty string is dropped unconditionally — removing it never
changes the conversion result, whether or not a sibling `function_call` item
is present anywhere in the input list.  (The claimed preservation in the
absence of a sibling does not happen; see the counterexample.) -/
theorem C8_empty_assistant_drop (pk : String → Option (List String))
    (fresh : Nat → String) (instructions : Option String)
    (pre suf : List InItem) (bs : List RBlock) (h : combinedText bs = "") :
    response_input_to_langchain_messages pk fresh instructions
      (some (.inr (pre ++ InItem.message "assistant" (RContent.blocks bs) :: suf))) =
    response_input_to_langchain_messages pk fresh instructions
      (some (.inr (pre ++ suf))) := by
  simp only [response_input_to_langchain_messages]
  rw [itemsToMsgs_drop_empty_assistant pk fresh bs h]

/-- Witness for C8 at a concrete input: a textless assistant message between
a user message and a tool output disappears from the conversion. -/
theorem C8_empty_assistant_drop_witness :
    combinedText [RBlock.mk "output_text" ""] = "" ∧
    response_input_to_langchain_messages (fun _ => none) (fun _ => "u") none
      (some (.inr ([InItem.message "user" (RContent.str "hi")] ++
        InItem.message "assistant"
          (RContent.blocks [RBlock.mk "output_text" ""]) ::
        [InItem.functionCallOutput "call_1" "ok"]))) =
    response_input_to_langchain_messages (fun _ => none) (fun _ => "u") none
      (some (.inr ([InItem.message "user" (RContent.str "hi")] ++
        [InItem.functionCallOutput "call_1" "ok"]))) := by
  exact ⟨rfl, C8_empty_assistant_drop (fun _ => none) (fun _ => "u") none
    [InItem.message "user" (RContent.str "hi")]
    [InItem.functionCallOutput "call_1" "ok"]
    [RBlock.mk "output_text" ""] rfl⟩

/-- Counterexample to C8 as stated: an input list holding a single textless
assistant `message` item and no `function_call` sibling at all still loses
the assistant message — the conversion output is empty, not a preserved
empty assistant message. -/
theorem C8_counterexample :
    (∀ it ∈ [InItem.message "assistant" (RContent.blocks [])],
      isFunctionCallItem it = false) ∧
    response_input_to_langchain_messages (fun _ => none) (fun _ => "u") none
      (some (.inr [InItem.message "assistant" (RContent.blocks [])])) = [] := by
  constructor
  · intro it hit
    rw [List.mem_singleton.mp hit]
    rfl
  · rfl

/-! ## Responses streaming generator (`responses_api.py`,
`response_stream_generator`, lines 163-461; event helpers in
`converters/responses_converter.py`, lines 601-713)

Events are JSON objects.  Every helper call in the generator is modelled
through `pyCall`, which carries the helper's formal parameter list (from its
`def` in `responses_converter.py`) and the keyword-argument names of the
call site (from `responses_api.py`); per Python call semantics, a keyword
argument absent from the parameter list raises `TypeError`.  The generator
body runs in a yield-accumulating exception monad, and the `except` block
(lines 435-461) turns an escaped exception into a final error event.
`generate_item_id` / `uuid.uuid4()` draws are abstracted by streams
`ffc`, `cfr`, `uh : Nat → String` consumed with the creation counter. -/

/-- A JSON value (events are `obj` nodes; dict keys in insertion order). -/
inductive JVal where
  | s (v : String)
  | n (v : Nat)
  | null
  | arr (l : List JVal)
  | obj (l : List (String × JVal))
deriving Repr

/-- Whether a JSON object carries a top-level key. -/
def jHasKey (v : JVal) (key : String) : Bool :=
  match v with
  | .obj l => l.any fun p => p.1 = key
  | _ => false

/-- `null` for an absent optional string, the string otherwise. -/
def jOptStr : Option String → JVal
  | some s => .s s
  | none => .null

/-- A raised Python `TypeError`: the called function and the offending
keyword. -/
structure PyErr where
  fn : String
  kw : String
deriving DecidableEq, Repr

/-- The generator monad: accumulated yields plus an escaping exception. -/
def GenM (α : Type) : Type := List JVal → List JVal × Except PyErr α

instance : Monad GenM where
  pure a := fun evs => (evs, .ok a)
  bind m f := fun evs =>
    match m evs with
    | (evs1, .ok a) => f a evs1
    | (evs1, .error e) => (evs1, .error e)

/-- Call a helper: if some passed keyword is not among the helper's formal
parameters, Python raises `TypeError` before the helper body runs; otherwise
the call returns the helper's value. -/
def pyCall (fname : String) (params kwargs : List String) (v : JVal) :
    GenM JVal := fun evs =>
  match kwargs.find? (fun k => !params.contains k) with
  | some k => (evs, .error ⟨fname, k⟩)
  | none => (evs, .ok v)

/-- `yield format_stream_event(event)`. -/
def yieldEv (v : JVal) : GenM Unit := fun evs => (evs ++ [v], .ok ())

/-- `create_response_created_event` (converter lines 601-617). -/
def create_response_created_event (response_id model : String)
    (previous_response_id : Option String) : JVal :=
  .obj [("type", .s "response.created"),
        ("response", .obj
          [("id", .s response_id), ("object", .s "response"),
           ("model", .s model), ("status", .s "in_progress"),
           ("output", .arr []),
           ("previous_response_id", jOptStr previous_response_id)])]

def create_response_created_event_params : List String :=
  ["response_id", "model", "previous_response_id"]

/-- `create_output_item_added_event` (converter lines 620-645); `freshV`
stands for the `uuid.uuid4().hex[:24]` drawn for a `function_call` item. -/
def create_output_item_added_event (freshV : String) (output_index : Nat)
    (item_type item_id : String) : JVal :=
  let base := [("id", JVal.s item_id), ("type", JVal.s item_type)]
  let item :=
    if item_type = "message" then
      base ++ [("role", JVal.s "assistant"), ("content", JVal.arr []),
               ("status", JVal.s "in_progress")]
    else if item_type = "function_call" then
      base ++ [("call_id", JVal.s ("call_" ++ freshV)), ("name", JVal.s ""),
               ("arguments", JVal.s ""), ("status", JVal.s "in_progress")]
    else base
  .obj [("type", .s "response.output_item.added"),
        ("output_index", .n output_index), ("item", .obj item)]

def create_output_item_added_event_params : List String :=
  ["output_index", "item_type", "item_id"]

/-- `create_output_text_delta_event` (converter lines 648-659). -/
def create_output_text_delta_event (output_index content_index : Nat)
    (delta : String) : JVal :=
  .obj [("type", .s "response.output_text.delta"),
        ("output_index", .n output_index),
        ("content_index", .n content_index), ("delta", .s delta)]

def create_output_text_delta_event_params : List String :=
  ["output_index", "content_index", "delta"]

/-- `create_function_call_arguments_delta_event` (converter lines
662-673). -/
def create_function_call_arguments_delta_event (output_index : Nat)
    (call_id delta : String) : JVal :=
  .obj [("type", .s "response.function_call_arguments.delta"),
        ("output_index", .n output_index), ("call_id", .s call_id),
        ("delta", .s delta)]

def create_function_call_arguments_delta_event_params : List String :=
  ["output_index", "call_id", "delta"]

/-- `create_output_item_done_event` (converter lines 676-685). -/
def create_output_item_done_event (output_index : Nat) (item : JVal) : JVal :=
  .obj [("type", .s "response.output_item.done"),
        ("output_index", .n output_index), ("item", item)]

def create_output_item_done_event_params : List String :=
  ["output_index", "item"]

/-- `create_response_completed_event` (converter lines 688-707). -/
def create_response_completed_event (response_id model : String)
    (output : List JVal) (usage : JVal)
    (previous_response_id : Option String) : JVal :=
  .obj [("type", .s "response.completed"),
        ("response", .obj
          [("id", .s response_id), ("object", .s "response"),
           ("model", .s model), ("status", .s "completed"),
           ("output", .arr output), ("usage", usage),
           ("previous_response_id", jOptStr previous_response_id)])]

def create_response_completed_event_params : List String :=
  ["response_id", "model", "output", "usage", "previous_response_id"]

/-- The error event built in the `except` block (lines 454-460). -/
def pyErrorEvent (e : PyErr) : JVal :=
  .obj [("type", .s "error"),
        ("error", .obj
          [("type", .s "server_error"),
           ("message", .s (e.fn ++
             "() got an unexpected keyword argument " ++ e.kw))])]

/-- An entry of `output_items`: the message item (index 0) or a function
call item.  Message content blocks are the `output_text` texts. -/
inductive OutItem where
  | message (id status : String) (content : List String)
  | functionCall (id callId name arguments status : String)
deriving Repr

/-- A stored tool state (`tool_states[tc_index]`, lines 311-318). -/
structure RTState where
  output_index : Nat
  item_id : String
  call_id : String
  name : String
  arguments : String
  started : Bool
deriving Repr

/-- The loop state: sequence counter, output items, accumulated text, tool
states in insertion order, and the fresh-draw counter. -/
structure RGenSt where
  seq : Nat
  outputItems : List OutItem
  fullText : String
  toolStates : List (Nat × RTState)
  nextFresh : Nat

/-- Association-list lookup for the responses tool-states dict. -/
def lookupRTS : List (Nat × RTState) → Nat → Option RTState
  | [], _ => none
  | (k, v) :: rest, key => if k = key then some v else lookupRTS rest key

/-- In-place update of the dict entry at a key. -/
def updateRTS (l : List (Nat × RTState)) (key : Nat) (v : RTState) :
    List (Nat × RTState) :=
  l.map fun p => if p.1 = key then (p.1, v) else p

/-- `output_items[i] = f(output_items[i])`. -/
def modifyItem (l : List OutItem) (i : Nat) (f : OutItem → OutItem) :
    List OutItem :=
  l.enum.map fun p => if p.1 = i then f p.2 else p.2

/-- `output_items[i]` (the generator only indexes live entries). -/
def itemAt (l : List OutItem) (i : Nat) : OutItem :=
  l.getD i (.message "" "" [])

/-- The content-block list of the message item `output_items[0]`. -/
def msgItemContent (l : List OutItem) : List String :=
  match itemAt l 0 with
  | .message _ _ c => c
  | _ => []

/-- An output item as the JSON dict the source builds (message item
lines 229-235, function-call item lines 320-327). -/
def itemToJVal : OutItem → JVal
  | .message id status content =>
    .obj [("id", .s id), ("type", .s "message"), ("role", .s "assistant"),
          ("status", .s status),
          ("content", .arr (content.map fun t =>
            .obj [("type", .s "output_text"), ("text", .s t)]))]
  | .functionCall id callId name arguments status =>
    .obj [("id", .s id), ("type", .s "function_call"), ("call_id", .s callId),
          ("name", .s name), ("arguments", .s arguments),
          ("status", .s status)]

/-- Close the message item when transitioning to tool calls (lines
279-296). -/
def closeMsgItem (st : RGenSt) : GenM RGenSt := do
  if msgItemContent st.outputItems ≠ [] ∨ st.fullText ≠ "" then
    let items :=
      if st.fullText ≠ "" then
        modifyItem st.outputItems 0 fun it =>
          match it with
          | .message id status c => .message id status (c ++ [st.fullText])
          | it => it
      else st.outputItems
    let items := modifyItem items 0 fun it =>
      match it with
      | .message id _ c => .message id "completed" c
      | it => it
    let st1 := { st with
      outputItems := items
      seq := st.seq + 1 }
    let ev ← pyCall "create_output_item_done_event"
      create_output_item_done_event_params
      ["output_index", "item", "sequence_number"]
      (create_output_item_done_event 0 (itemToJVal (itemAt items 0)))
    yieldEv ev
    pure st1
  else pure st

/-- Process one `tool_calls` delta entry (lines 298-358). -/
def processTc (ffc cfr : Nat → String) (tc : TCDelta) (st : RGenSt) :
    GenM RGenSt := do
  let tcIndex := tc.index.getD 0
  let f := tc.function.getD ⟨none, none⟩
  let tcName := f.name.getD ""
  let tcArguments := f.arguments.getD ""
  let stateAndSt ←
    match lookupRTS st.toolStates tcIndex with
    | some s => pure (s, st)
    | none => do
      let fcItemId := ffc st.nextFresh
      let callId := pyOr tc.id ("call_" ++ cfr st.nextFresh)
      let newState : RTState :=
        ⟨st.outputItems.length, fcItemId, callId, tcName, "", false⟩
      let st1 := { st with
        toolStates := st.toolStates ++ [(tcIndex, newState)]
        outputItems := st.outputItems ++
          [.functionCall fcItemId callId "" "" "in_progress"]
        nextFresh := st.nextFresh + 1
        seq := st.seq + 1 }
      let ev ← pyCall "create_output_item_added_event"
        create_output_item_added_event_params
        ["output_index", "item_type", "item_id", "sequence_number"]
        (create_output_item_added_event (cfr st1.nextFresh)
          (st1.outputItems.length - 1) "function_call" fcItemId)
      yieldEv ev
      pure (newState, st1)
  let state := stateAndSt.1
  let st := stateAndSt.2
  let stateAndSt2 :=
    if tcName ≠ "" ∧ state.name = "" then
      let state1 := { state with name := tcName }
      (state1, { st with
        toolStates := updateRTS st.toolStates tcIndex state1
        outputItems := modifyItem st.outputItems state.output_index fun it =>
          match it with
          | .functionCall id callId _ args status =>
            .functionCall id callId tcName args status
          | it => it })
    else (state, st)
  let state := stateAndSt2.1
  let st := stateAndSt2.2
  if tcArguments ≠ "" then
    let state1 := { state with arguments := state.arguments ++ tcArguments }
    let st1 := { st with
      toolStates := updateRTS st.toolStates tcIndex state1
      seq := st.seq + 1 }
    let ev ← pyCall "create_function_call_arguments_delta_event"
      create_function_call_arguments_delta_event_params
      ["output_index", "call_id", "delta", "item_id", "sequence_number"]
      (create_function_call_arguments_delta_event state.output_index
        state.call_id tcArguments)
    yieldEv ev
    pure st1
  else pure st

/-- The inner `for tc in tool_calls_delta` loop. -/
def processTcs (ffc cfr : Nat → String) : List TCDelta → RGenSt → GenM RGenSt
  | [], st => pure st
  | tc :: rest, st => do
    let st1 ← processTc ffc cfr tc st
    processTcs ffc cfr rest st1

/-- Process one upstream chunk (lines 248-358): text deltas, then — for a
truthy `tool_calls` list — closing the message item and the per-delta
loop. -/
def processRChunk (ffc cfr : Nat → String) (ch : StreamChunk) (st : RGenSt) :
    GenM RGenSt := do
  let st ←
    if ch.content ≠ "" then do
      let st1 := { st with
        fullText := st.fullText ++ ch.content
        seq := st.seq + 1 }
      let ev ← pyCall "create_output_text_delta_event"
        create_output_text_delta_event_params
        ["output_index", "content_index", "delta", "item_id",
         "sequence_number"]
        (create_output_text_delta_event 0 0 ch.content)
      yieldEv ev
      pure st1
    else pure st
  match ch.toolCalls with
  | none => pure st
  | some l =>
    if l.isEmpty then pure st
    else do
      let st1 ← closeMsgItem st
      processTcs ffc cfr l st1

/-- The `async for chunk in chat_model.astream(...)` loop. -/
def processRChunks (ffc cfr : Nat → String) :
    List StreamChunk → RGenSt → GenM RGenSt
  | [], st => pure st
  | ch :: rest, st => do
    let st1 ← processRChunk ffc cfr ch st
    processRChunks ffc cfr rest st1

/-- Insert a keyed tool state into a list sorted by key. -/
def insertSortedRTS (p : Nat × RTState) :
    List (Nat × RTState) → List (Nat × RTState)
  | [] => [p]
  | q :: rest => if p.1 ≤ q.1 then p :: q :: rest else q :: insertSortedRTS p rest

/-- `sorted(tool_states.items())`. -/
def sortRTS : List (Nat × RTState) → List (Nat × RTState)
  | [] => []
  | p :: rest => insertSortedRTS p (sortRTS rest)

/-- The message content of a canonical message (for the usage estimate). -/
def msgContent : Msg → String
  | .user c => c
  | .system c => c
  | .assistant c _ => c
  | .tool _ c => c

/-- Finalisation of the tool-call items (lines 379-390). -/
def finalizeRTools : List (Nat × RTState) → RGenSt → GenM RGenSt
  | [], st => pure st
  | (_, s) :: rest, st => do
    let items := modifyItem st.outputItems s.output_index fun it =>
      match it with
      | .functionCall id callId name _ _ =>
        .functionCall id callId name s.arguments "completed"
      | it => it
    let st1 := { st with
      outputItems := items
      seq := st.seq + 1 }
    let ev ← pyCall "create_output_item_done_event"
      create_output_item_done_event_params
      ["output_index", "item", "sequence_number"]
      (create_output_item_done_event s.output_index (itemAt items s.output_index |> itemToJVal))
    yieldEv ev
    finalizeRTools rest st1

/-- The stored `Response` model instance populated by the stream path
(lines 426-432): its `output` field is the literal empty list. -/
structure RResponse where
  id : String
  model : String
  output : List JVal
  status : String
  previous_response_id : Option String
deriving Repr

def streamStoredResponseLiteral (response_id model : String)
    (previous_response_id : Option String) : RResponse :=
  ⟨response_id, model, [], "completed", previous_response_id⟩

/-- Finalisation after the stream loop (lines 360-433): close the message
item, close tool items in key order, estimate usage, emit
`response.completed`, and build and store the `Response` whose `output` is
the empty list. -/
def finalizeRGen (response_id model : String)
    (previous_response_id : Option String) (lcMessages : List Msg)
    (st : RGenSt) : GenM (Option RResponse) := do
  let items :=
    if st.fullText ≠ "" ∧ msgItemContent st.outputItems = [] then
      modifyItem st.outputItems 0 fun it =>
        match it with
        | .message id status c => .message id status (c ++ [st.fullText])
        | it => it
    else st.outputItems
  let items := modifyItem items 0 fun it =>
    match it with
    | .message id _ c => .message id "completed" c
    | it => it
  let st := { st with
    outputItems := items
    seq := st.seq + 1 }
  let ev ← pyCall "create_output_item_done_event"
    create_output_item_done_event_params
    ["output_index", "item", "sequence_number"]
    (create_output_item_done_event 0 (itemToJVal (itemAt items 0)))
  yieldEv ev
  let st ← finalizeRTools (sortRTS st.toolStates) st
  let inputTokens := ((lcMessages.map fun m => pyWordCount (msgContent m)).sum) / 2
  let outputTokens := pyWordCount st.fullText +
    ((st.toolStates.map fun p => p.2.arguments.length / 4).sum)
  let usage := JVal.obj
    [("input_tokens", .n inputTokens), ("output_tokens", .n outputTokens),
     ("total_tokens", .n (inputTokens + outputTokens))]
  let ev ← pyCall "create_response_completed_event"
    create_response_completed_event_params
    ["response_id", "model", "output", "usage", "previous_response_id",
     "sequence_number"]
    (create_response_completed_event response_id model
      (st.outputItems.map itemToJVal) usage previous_response_id)
  yieldEv ev
  let response := streamStoredResponseLiteral response_id model
    previous_response_id
  pure (if response.id ≠ "" then some response else none)

/-- The generator body inside the `try` (lines 185-433). -/
def respGenBody (response_id model : String)
    (previous_response_id : Option String) (msgItemId : String)
    (ffc cfr : Nat → String) (lcMessages : List Msg)
    (chunks : List StreamChunk) : GenM (Option RResponse) := do
  let ev ← pyCall "create_response_created_event"
    create_response_created_event_params
    ["response_id", "model", "previous_response_id", "sequence_number"]
    (create_response_created_event response_id model previous_response_id)
  yieldEv ev
  let st : RGenSt := ⟨1, [OutItem.message msgItemId "in_progress" []], "", [], 0⟩
  let st := { st with seq := st.seq + 1 }
  let ev ← pyCall "create_output_item_added_event"
    create_output_item_added_event_params
    ["output_index", "item_type", "item_id", "sequence_number"]
    (create_output_item_added_event (cfr st.nextFresh) 0 "message" msgItemId)
  yieldEv ev
  let st ← processRChunks ffc cfr chunks st
  finalizeRGen response_id model previous_response_id lcMessages st

/-- `response_stream_generator` (lines 163-461): the `try` body with the
`except` clause that turns an escaped exception into a single error event
(and stores nothing).  Result: the yielded events and the stored response,
if any. -/
def response_stream_generator (response_id model : String)
    (previous_response_id : Option String) (msgItemId : String)
    (ffc cfr : Nat → String) (lcMessages : List Msg)
    (chunks : List StreamChunk) : List JVal × Option RResponse :=
  match respGenBody response_id model previous_response_id msgItemId
      ffc cfr lcMessages chunks [] with
  | (evs, .ok stored) => (evs, stored)
  | (evs, .error e) => (evs ++ [pyErrorEvent e], none)

/-- Claim C6 (code bug): the Responses event helpers in
`responses_converter.py` take no `sequence_number` parameter and build
events without a `sequence_number` key, while `response_stream_generator`
passes `sequence_number=` to every helper call.  Python therefore raises
`TypeError` at the very first call (`create_response_created_event`, before
any event is yielded); the `except` block turns it into a single `error`
event, so every stream consists of exactly that one event, which itself
carries no `sequence_number` — no emitted event ever carries one, let alone
monotonically increasing ones. -/
theorem C6_sequence_numbers (response_id model : String)
    (previous_response_id : Option String) (msgItemId : String)
    (ffc cfr : Nat → String) (lcMessages : List Msg)
    (chunks : List StreamChunk) :
    response_stream_generator response_id model previous_response_id msgItemId
        ffc cfr lcMessages chunks =
      ([pyErrorEvent ⟨"create_response_created_event", "sequence_number"⟩],
       none) ∧
    (∀ ev ∈ (response_stream_generator response_id model previous_response_id
        msgItemId ffc cfr lcMessages chunks).1,
      jHasKey ev "sequence_number" = false) ∧
    (∀ rid m prev, jHasKey (create_response_created_event rid m prev)
      "sequence_number" = false) ∧
    (∀ fr oi it iid, jHasKey (create_output_item_added_event fr oi it iid)
      "sequence_number" = false) ∧
    (∀ oi ci d, jHasKey (create_output_text_delta_event oi ci d)
      "sequence_number" = false) ∧
    (∀ oi cid d, jHasKey (create_function_call_arguments_delta_event oi cid d)
      "sequence_number" = false) ∧
    (∀ oi it, jHasKey (create_output_item_done_event oi it)
      "sequence_number" = false) ∧
    (∀ rid m out us prev, jHasKey
      (create_response_completed_event rid m out us prev)
      "sequence_number" = false) := by
  have h1 : response_stream_generator response_id model previous_response_id
      msgItemId ffc cfr lcMessages chunks =
      ([pyErrorEvent ⟨"create_response_created_event", "sequence_number"⟩],
       none) := rfl
  refine ⟨h1, ?_, fun _ _ _ => rfl, fun _ _ _ _ => rfl, fun _ _ _ => rfl,
    fun _ _ _ => rfl, fun _ _ => rfl, fun _ _ _ _ _ => rfl⟩
  intro ev hev
  rw [h1] at hev
  rw [List.mem_singleton.mp hev]
  rfl

/-- Claim C9 (code bug): a streamed Responses request never populates the
response-retrieval cache with the final reply.  The stream path's
`store_response` call is unreachable (the generator dies at its first helper
call, and the `except` block stores nothing), so the generator's stored
result is always `none`; and the `Response` literal the store line would
have saved (lines 426-432) sets `output=[]` — contrary to its own
"populated from output_items" comment — so even reaching it would cache a
reply without its output items. -/
theorem C9_stream_store_empty (response_id model : String)
    (previous_response_id : Option String) (msgItemId : String)
    (ffc cfr : Nat → String) (lcMessages : List Msg)
    (chunks : List StreamChunk) :
    (response_stream_generator response_id model previous_response_id
        msgItemId ffc cfr lcMessages chunks).2 = none ∧
    (streamStoredResponseLiteral response_id model
        previous_response_id).output = [] :=
  ⟨rfl, rfl⟩

end OCA
